import Mathlib

/-!
Verification development for the semantic-mail core:
mbox ingestion (`src/sync/mbox_sync.py`), embedding client
(`src/embedding/ollama_embedder.py`) and semantic search
(`src/search/searcher.py`), shallowly embedded in Lean.
Text is modelled as `List Char`, bytes as `List Nat`, distances as `ℚ`.
-/

namespace SMail

/-! ### Text utilities: `MboxSyncer._strip_html`

The Python code is a pipeline of four `re.sub` passes plus `.strip()`:
script-block removal, style-block removal, tag stripping (`<[^>]+>` to a
single space), whitespace-run collapsing (`\s+` to a single space). -/

/-- Python `\s` character class: space, tab, newline, CR, vertical tab, form feed. -/
def isWs (c : Char) : Bool :=
  c == ' ' || c == '\t' || c == '\n' || c == '\r' || c == '\x0b' || c == '\x0c'

/-- Python `str.strip()`: drop whitespace from both ends. -/
def trimWs (l : List Char) : List Char :=
  ((l.dropWhile isWs).reverse.dropWhile isWs).reverse

/-- `re.sub(r"\s+", " ", s)`: each maximal whitespace run becomes one space. -/
def collapseWs : List Char → List Char
  | [] => []
  | c :: r =>
    if isWs c then ' ' :: collapseWs (r.dropWhile isWs) else c :: collapseWs r
termination_by l => l.length
decreasing_by
  · simp only [List.length_cons]
    exact Nat.lt_succ_of_le (List.dropWhile_sublist isWs).length_le
  · simp

/-- Split a list at the first occurrence of `>`: returns the part before
(which contains no `>`) and the part after. -/
def splitAtGt : List Char → Option (List Char × List Char)
  | [] => none
  | c :: r =>
    if c = '>' then some ([], r)
    else (splitAtGt r).map (fun p => (c :: p.1, p.2))

theorem splitAtGt_eq : ∀ l g t, splitAtGt l = some (g, t) →
    l = g ++ '>' :: t ∧ '>' ∉ g
  | [], g, t => by simp [splitAtGt]
  | c :: r, g, t => by
    simp only [splitAtGt]
    split
    · rename_i hc
      intro h
      simp only [Option.some.injEq, Prod.mk.injEq] at h
      subst hc
      simp [← h.1, ← h.2]
    · rename_i hc
      intro h
      simp only [Option.map_eq_some'] at h
      obtain ⟨⟨g', t'⟩, hg', heq⟩ := h
      obtain ⟨h1, h2⟩ := splitAtGt_eq r g' t' hg'
      simp only [Prod.mk.injEq] at heq
      obtain ⟨hg, ht⟩ := heq
      constructor
      · simp [← hg, ← ht, h1]
      · simp only [← hg, List.mem_cons, not_or]
        exact ⟨fun hcg => hc hcg.symm, h2⟩

theorem splitAtGt_none : ∀ l, splitAtGt l = none → '>' ∉ l
  | [], _ => by simp
  | c :: r, h => by
    simp only [splitAtGt] at h
    split at h
    · exact absurd h (by simp)
    · rename_i hc
      simp only [Option.map_eq_none'] at h
      simp only [List.mem_cons, not_or]
      exact ⟨fun hcg => hc hcg.symm, splitAtGt_none r h⟩

/-- `re.sub(r"<[^>]+>", " ", s)`: at each `<` whose first following `>` is at
distance at least two, the whole `<...>` span becomes one space and scanning
resumes after it; a `<` with no such match is kept and scanning advances. -/
def stripTags : List Char → List Char
  | [] => []
  | c :: r =>
    if c = '<' then
      match h : splitAtGt r with
      | none => c :: r
      | some ([], _) => c :: stripTags r
      | some (_ :: g, t) => ' ' :: stripTags t
    else c :: stripTags r
termination_by l => l.length
decreasing_by
  · simp
  · rename_i x
    have := (splitAtGt_eq r (x :: g) t h).1
    simp only [this, List.length_append, List.length_cons]
    omega
  · simp

/-- First occurrence of `pat` in the list; returns the suffix after it. -/
def findSub (pat : List Char) : List Char → Option (List Char)
  | [] => if pat.isEmpty then some [] else none
  | c :: r =>
    if pat.isPrefixOf (c :: r) then some ((c :: r).drop pat.length)
    else findSub pat r

theorem findSub_eq (pat : List Char) :
    ∀ l t, findSub pat l = some t → ∃ pre, l = pre ++ pat ++ t
  | [], t => by
    simp only [findSub]
    split
    · rename_i hp
      intro h
      simp only [Option.some.injEq] at h
      exact ⟨[], by simp_all [List.isEmpty_iff]⟩
    · intro h; exact absurd h (by simp)
  | c :: r, t => by
    simp only [findSub]
    split
    · rename_i hp
      intro h
      simp only [Option.some.injEq] at h
      rw [List.isPrefixOf_iff_prefix] at hp
      obtain ⟨u, hu⟩ := hp
      refine ⟨[], ?_⟩
      simp only [List.nil_append, ← hu, ← h]
      rw [List.drop_left' rfl]
    · intro h
      obtain ⟨pre, hpre⟩ := findSub_eq pat r t h
      exact ⟨c :: pre, by simp [hpre]⟩

theorem findSub_length {pat l t : List Char} (hp : pat ≠ [])
    (h : findSub pat l = some t) : t.length < l.length := by
  obtain ⟨pre, hpre⟩ := findSub_eq pat l t h
  subst hpre
  have : 0 < pat.length := List.length_pos.mpr hp
  simp only [List.length_append]
  omega

/-- `re.sub(opn + ".*?" + cls, "", s, flags=re.DOTALL)` for literal `opn`/`cls`:
at each occurrence of `opn`, the lazy match runs to the end of the first
following occurrence of `cls`; the whole span is deleted and scanning resumes
after it.  If no `cls` follows, no match can begin anywhere later either
(every later match would need that same `cls`), so the rest is kept. -/
def removeBlocks (opn cls : List Char) (hc : cls ≠ []) : List Char → List Char
  | [] => []
  | c :: r =>
    if opn.isPrefixOf (c :: r) then
      match h : findSub cls ((c :: r).drop opn.length) with
      | some t => removeBlocks opn cls hc t
      | none => c :: r
    else c :: removeBlocks opn cls hc r
termination_by l => l.length
decreasing_by
  · have h1 := findSub_length hc h
    have h2 : ((c :: r).drop opn.length).length ≤ (c :: r).length :=
      (List.drop_sublist opn.length (c :: r)).length_le
    omega
  · simp

def scrO : List Char := ['<', 's', 'c', 'r', 'i', 'p', 't']
def scrC : List Char := ['<', '/', 's', 'c', 'r', 'i', 'p', 't', '>']
def styO : List Char := ['<', 's', 't', 'y', 'l', 'e']
def styC : List Char := ['<', '/', 's', 't', 'y', 'l', 'e', '>']

theorem scrC_ne : scrC ≠ [] := by simp [scrC]
theorem styC_ne : styC ≠ [] := by simp [styC]

theorem scrO_eq : scrO = '<' :: ['s', 'c', 'r', 'i', 'p', 't'] := rfl
theorem scrC_eq : scrC = '<' :: ['/', 's', 'c', 'r', 'i', 'p', 't', '>'] := rfl
theorem styO_eq : styO = '<' :: ['s', 't', 'y', 'l', 'e'] := rfl
theorem styC_eq : styC = '<' :: ['/', 's', 't', 'y', 'l', 'e', '>'] := rfl

/-- `MboxSyncer._strip_html`: remove script blocks, remove style blocks,
strip tags, collapse whitespace, strip the ends. -/
def stripHtml (l : List Char) : List Char :=
  trimWs (collapseWs (stripTags
    (removeBlocks styO styC styC_ne
      (removeBlocks scrO scrC scrC_ne l))))

/-! ### Markup-tag occurrence predicate

`TagIn l` states that `l` contains a substring matching `<[^>]+>`:
a `<`, at least one non-`>` character, then a `>`. -/

def TagIn (l : List Char) : Prop :=
  ∃ a m b, l = a ++ '<' :: (m ++ '>' :: b) ∧ m ≠ [] ∧ '>' ∉ m

theorem tagIn_cons {c : Char} {l : List Char} (h : TagIn (c :: l)) :
    (c = '<' ∧ ∃ m b, l = m ++ '>' :: b ∧ m ≠ [] ∧ '>' ∉ m) ∨ TagIn l := by
  obtain ⟨a, m, b, hl, hm, hgt⟩ := h
  cases a with
  | nil =>
    simp only [List.nil_append, List.cons.injEq] at hl
    exact Or.inl ⟨hl.1, m, b, hl.2, hm, hgt⟩
  | cons x a' =>
    simp only [List.cons_append, List.cons.injEq] at hl
    exact Or.inr ⟨a', m, b, hl.2, hm, hgt⟩

theorem tagIn_gt_mem {l : List Char} (h : TagIn l) : '>' ∈ l := by
  obtain ⟨a, m, b, hl, _, _⟩ := h
  subst hl
  simp

theorem not_tagIn_of_no_gt {l : List Char} (h : '>' ∉ l) : ¬ TagIn l :=
  fun ht => h (tagIn_gt_mem ht)

theorem tagIn_cons_of {c : Char} {l : List Char} (h : TagIn l) : TagIn (c :: l) := by
  obtain ⟨a, m, b, hl, hm, hgt⟩ := h
  exact ⟨c :: a, m, b, by simp [hl], hm, hgt⟩

theorem tagIn_append_left {s l : List Char} (h : TagIn l) : TagIn (s ++ l) := by
  obtain ⟨a, m, b, hl, hm, hgt⟩ := h
  exact ⟨s ++ a, m, b, by simp [hl], hm, hgt⟩

theorem tagIn_append_right {l t : List Char} (h : TagIn l) : TagIn (l ++ t) := by
  obtain ⟨a, m, b, hl, hm, hgt⟩ := h
  refine ⟨a, m, b ++ t, ?_, hm, hgt⟩
  simp [hl]

theorem stripTags_cons_ne {c : Char} (r : List Char) (hc : ¬ c = '<') :
    stripTags (c :: r) = c :: stripTags r := by
  rw [stripTags, if_neg hc]

theorem stripTags_lt_none {r : List Char} (h : splitAtGt r = none) :
    stripTags ('<' :: r) = '<' :: r := by
  rw [stripTags, if_pos rfl]
  split
  · rfl
  · rename_i heq; rw [h] at heq; exact absurd heq (by simp)
  · rename_i heq; rw [h] at heq; exact absurd heq (by simp)

theorem stripTags_lt_some_nil {r t : List Char} (h : splitAtGt r = some ([], t)) :
    stripTags ('<' :: r) = '<' :: stripTags r := by
  rw [stripTags, if_pos rfl]
  split
  · rename_i heq; rw [h] at heq; exact absurd heq (by simp)
  · rfl
  · rename_i x g t' heq
    rw [h] at heq
    simp only [Option.some.injEq, Prod.mk.injEq] at heq
    exact absurd heq.1.symm (by simp)

theorem stripTags_lt_some_cons {r t : List Char} {x : Char} {g : List Char}
    (h : splitAtGt r = some (x :: g, t)) :
    stripTags ('<' :: r) = ' ' :: stripTags t := by
  rw [stripTags, if_pos rfl]
  split
  · rename_i heq; rw [h] at heq; exact absurd heq (by simp)
  · rename_i heq
    rw [h] at heq
    simp only [Option.some.injEq, Prod.mk.injEq] at heq
    exact absurd heq.1 (by simp)
  · rename_i x' g' t' heq
    rw [h] at heq
    simp only [Option.some.injEq, Prod.mk.injEq, List.cons.injEq] at heq
    rw [← heq.2]

/-- After tag stripping, no `<[^>]+>` substring remains. -/
theorem stripTags_not_tagIn : ∀ l, ¬ TagIn (stripTags l)
  | [] => by intro h; obtain ⟨a, m, b, hl, _, _⟩ := h; simp [stripTags] at hl
  | c :: r => by
    by_cases hc : c = '<'
    · subst hc
      cases hsplit : splitAtGt r with
      | none =>
        rw [stripTags_lt_none hsplit]
        exact not_tagIn_of_no_gt
          (by simp only [List.mem_cons, not_or]
              exact ⟨by decide, splitAtGt_none r hsplit⟩)
      | some p =>
        obtain ⟨g, t⟩ := p
        cases g with
        | nil =>
          have hr := (splitAtGt_eq r [] t hsplit).1
          simp only [List.nil_append] at hr
          rw [stripTags_lt_some_nil hsplit, hr,
            stripTags_cons_ne _ (by decide)]
          intro h
          rcases tagIn_cons h with ⟨_, m, b, hmb, hm, hgt⟩ | h2
          · cases m with
            | nil => exact hm rfl
            | cons z m' =>
              simp only [List.cons_append, List.cons.injEq] at hmb
              exact hgt (hmb.1 ▸ List.mem_cons_self _ _)
          · rcases tagIn_cons h2 with ⟨hq, _⟩ | h3
            · exact absurd hq (by decide)
            · exact stripTags_not_tagIn t h3
        | cons x g' =>
          rw [stripTags_lt_some_cons hsplit]
          intro h
          rcases tagIn_cons h with ⟨hq, _⟩ | h2
          · exact absurd hq (by decide)
          · exact stripTags_not_tagIn t h2
    · rw [stripTags_cons_ne _ hc]
      intro h
      rcases tagIn_cons h with ⟨hq, _⟩ | h2
      · exact hc hq
      · exact stripTags_not_tagIn r h2
termination_by l => l.length
decreasing_by
  · have := (splitAtGt_eq r [] t hsplit).1
    simp only [List.nil_append] at this
    simp only [this, List.length_cons]
    omega
  · have := (splitAtGt_eq r (x :: g') t hsplit).1
    simp only [this, List.length_cons, List.length_append]
    omega
  · simp

theorem ws_ne_gt {c : Char} (h : isWs c = true) : c ≠ '>' := by
  intro he; subst he; simp [isWs] at h

theorem ws_ne_lt {c : Char} (h : isWs c = true) : c ≠ '<' := by
  intro he; subst he; simp [isWs] at h

/-- Pulling a `... ++ '>' :: ...` decomposition of `collapseWs l` back to `l`:
the part before the `>` only grows (whitespace runs re-expand). -/
theorem collapseWs_gt_decomp : ∀ l m b, collapseWs l = m ++ '>' :: b → '>' ∉ m →
    ∃ M B, l = M ++ '>' :: B ∧ '>' ∉ M ∧ m.length ≤ M.length
  | [], m, b => by
    intro h _
    rw [collapseWs] at h
    exact absurd h.symm (by simp)
  | c :: r, m, b => by
    intro h hgt
    by_cases hw : isWs c
    · rw [collapseWs, if_pos hw] at h
      cases m with
      | nil =>
        simp only [List.nil_append, List.cons.injEq] at h
        exact absurd h.1 (by decide)
      | cons d m' =>
        simp only [List.cons_append, List.cons.injEq] at h
        have hgt' : '>' ∉ m' := fun hx => hgt (List.mem_cons_of_mem _ hx)
        obtain ⟨M', B, hM, hgtM, hlen⟩ :=
          collapseWs_gt_decomp (r.dropWhile isWs) m' b h.2 hgt'
        refine ⟨c :: (r.takeWhile isWs ++ M'), B, ?_, ?_, ?_⟩
        · have hr : r = r.takeWhile isWs ++ r.dropWhile isWs :=
            (List.takeWhile_append_dropWhile isWs r).symm
          rw [List.cons_append, List.append_assoc, ← hM, ← hr]
        · intro hx
          rcases List.mem_cons.mp hx with hx | hx
          · exact ws_ne_gt hw hx.symm
          · rcases List.mem_append.mp hx with hx | hx
            · exact ws_ne_gt (List.mem_takeWhile_imp hx) rfl
            · exact hgtM hx
        · simp only [List.length_cons, List.length_append]
          omega
    · rw [collapseWs, if_neg hw] at h
      cases m with
      | nil =>
        simp only [List.nil_append, List.cons.injEq] at h
        exact ⟨[], r, by simp [h.1], by simp, by simp⟩
      | cons d m' =>
        simp only [List.cons_append, List.cons.injEq] at h
        have hgt' : '>' ∉ m' := fun hx => hgt (List.mem_cons_of_mem _ hx)
        obtain ⟨M', B, hM, hgtM, hlen⟩ := collapseWs_gt_decomp r m' b h.2 hgt'
        refine ⟨c :: M', B, by rw [List.cons_append, ← hM], ?_, ?_⟩
        · intro hx
          rcases List.mem_cons.mp hx with hx | hx
          · exact hgt (hx ▸ h.1 ▸ List.mem_cons_self _ _)
          · exact hgtM hx
        · simp only [List.length_cons]
          omega
termination_by l => l.length
decreasing_by
  · simp only [List.length_cons]
    exact Nat.lt_succ_of_le (List.dropWhile_sublist isWs).length_le
  · simp

theorem tagIn_collapseWs : ∀ l, TagIn (collapseWs l) → TagIn l
  | [] => by rw [collapseWs]; exact fun h => h
  | c :: r => by
    intro h
    by_cases hw : isWs c
    · rw [collapseWs, if_pos hw] at h
      rcases tagIn_cons h with ⟨hq, _⟩ | h2
      · exact absurd hq (by decide)
      · have hdw := tagIn_collapseWs (r.dropWhile isWs) h2
        have hr : r = r.takeWhile isWs ++ r.dropWhile isWs :=
          (List.takeWhile_append_dropWhile isWs r).symm
        exact tagIn_cons_of (hr ▸ tagIn_append_left hdw)
    · rw [collapseWs, if_neg hw] at h
      rcases tagIn_cons h with ⟨hq, m, b, hmb, hm, hgt⟩ | h2
      · obtain ⟨M, B, hM, hgtM, hlen⟩ := collapseWs_gt_decomp r m b hmb hgt
        have hM0 : M ≠ [] := by
          intro he
          subst he
          simp only [List.length_nil, Nat.le_zero, List.length_eq_zero] at hlen
          exact hm hlen
        exact ⟨[], M, B, by simp [hq, hM], hM0, hgtM⟩
      · exact tagIn_cons_of (tagIn_collapseWs r h2)
termination_by l => l.length
decreasing_by
  · simp only [List.length_cons]
    exact Nat.lt_succ_of_le (List.dropWhile_sublist isWs).length_le
  · simp

theorem tagIn_trimWs {l : List Char} (h : TagIn (trimWs l)) : TagIn l := by
  have hA : l = l.takeWhile isWs ++ l.dropWhile isWs :=
    (List.takeWhile_append_dropWhile isWs l).symm
  set A := l.dropWhile isWs with hAdef
  have hArev : A.reverse = A.reverse.takeWhile isWs ++ A.reverse.dropWhile isWs :=
    (List.takeWhile_append_dropWhile isWs A.reverse).symm
  have hAsplit : A = (A.reverse.dropWhile isWs).reverse ++
      (A.reverse.takeWhile isWs).reverse := by
    have h0 : A = (A.reverse.takeWhile isWs ++ A.reverse.dropWhile isWs).reverse := by
      rw [← hArev, List.reverse_reverse]
    rw [List.reverse_append] at h0
    exact h0
  have h1 : TagIn A := by
    rw [hAsplit]
    exact tagIn_append_right h
  rw [hA]
  exact tagIn_append_left h1

/-- The body text produced by `_strip_html` never contains a `<[^>]+>` span. -/
theorem stripHtml_not_tagIn (l : List Char) : ¬ TagIn (stripHtml l) := by
  intro h
  exact stripTags_not_tagIn _ (tagIn_collapseWs _ (tagIn_trimWs h))

/-! ### Collapsed-whitespace shape of `_strip_html` output -/

/-- Every whitespace character is a plain space. -/
def allWsSpace (l : List Char) : Bool := l.all (fun c => !(isWs c) || c == ' ')

/-- No two adjacent whitespace characters. -/
def WsSeparated (l : List Char) : Prop :=
  l.Chain' (fun a b => ¬(isWs a = true ∧ isWs b = true))

/-- Neither end of the list is whitespace. -/
def noEndWs (l : List Char) : Bool :=
  (l.head?.all (fun c => !(isWs c))) && (l.getLast?.all (fun c => !(isWs c)))

theorem dropWhile_head_not {p : Char → Bool} : ∀ {l : List Char} {c : Char},
    (l.dropWhile p).head? = some c → p c = false := by
  intro l
  induction l with
  | nil => intro c h; simp [List.dropWhile] at h
  | cons x xs ih =>
    intro c h
    by_cases hx : p x
    · rw [List.dropWhile_cons_of_pos hx] at h
      exact ih h
    · rw [List.dropWhile_cons_of_neg hx] at h
      simp only [List.head?_cons, Option.some.injEq] at h
      subst h
      exact Bool.not_eq_true _ ▸ (by simpa using hx)

theorem allWsSpace_collapseWs : ∀ l, allWsSpace (collapseWs l) = true
  | [] => by rw [collapseWs]; rfl
  | c :: r => by
    by_cases hw : isWs c
    · rw [collapseWs, if_pos hw]
      simp only [allWsSpace, List.all_cons, Bool.and_eq_true]
      exact ⟨by decide, allWsSpace_collapseWs (r.dropWhile isWs)⟩
    · rw [collapseWs, if_neg hw]
      simp only [allWsSpace, List.all_cons, Bool.and_eq_true]
      exact ⟨by simp [hw], allWsSpace_collapseWs r⟩
termination_by l => l.length
decreasing_by
  · simp only [List.length_cons]
    exact Nat.lt_succ_of_le (List.dropWhile_sublist isWs).length_le
  · simp

theorem collapseWs_head_ws : ∀ {l : List Char} {c : Char},
    (collapseWs l).head? = some c → isWs c = true → c = ' ' := by
  intro l
  match l with
  | [] => intro c h _; rw [collapseWs] at h; simp at h
  | x :: r =>
    intro c h hws
    by_cases hx : isWs x
    · rw [collapseWs, if_pos hx] at h
      simp only [List.head?_cons, Option.some.injEq] at h
      exact h.symm
    · rw [collapseWs, if_neg hx] at h
      simp only [List.head?_cons, Option.some.injEq] at h
      exact absurd (h ▸ hws) (by simpa using hx)

theorem wsSeparated_collapseWs : ∀ l, WsSeparated (collapseWs l)
  | [] => by rw [collapseWs]; exact List.chain'_nil
  | c :: r => by
    by_cases hw : isWs c
    · rw [collapseWs, if_pos hw]
      rw [WsSeparated, List.chain'_cons']
      refine ⟨?_, wsSeparated_collapseWs (r.dropWhile isWs)⟩
      intro y hy
      intro ⟨_, hwy⟩
      -- the head of `collapseWs (r.dropWhile isWs)` comes from a non-ws char
      cases hdw : (r.dropWhile isWs) with
      | nil => rw [hdw, collapseWs] at hy; simp at hy
      | cons d r' =>
        have hd : isWs d = false := by
          have := dropWhile_head_not (p := isWs) (l := r) (c := d)
          rw [hdw] at this
          exact this rfl
        rw [hdw] at hy
        rw [collapseWs, if_neg (by simp [hd])] at hy
        simp only [List.head?_cons] at hy
        have hdy : d = y := by simpa using hy
        rw [← hdy] at hwy
        simp [hd] at hwy
    · rw [collapseWs, if_neg hw]
      rw [WsSeparated, List.chain'_cons']
      refine ⟨?_, wsSeparated_collapseWs r⟩
      intro y _
      intro ⟨hwc, _⟩
      exact absurd hwc (by simpa using hw)
termination_by l => l.length
decreasing_by
  · simp only [List.length_cons]
    exact Nat.lt_succ_of_le (List.dropWhile_sublist isWs).length_le
  · simp

/-- `trimWs l` sits inside `l`: `l = before ++ trimWs l ++ after`. -/
theorem trimWs_decomp (l : List Char) :
    ∃ s t, l = s ++ trimWs l ++ t := by
  refine ⟨l.takeWhile isWs, ((l.dropWhile isWs).reverse.takeWhile isWs).reverse, ?_⟩
  set A := l.dropWhile isWs with hAdef
  have hArev : A.reverse = A.reverse.takeWhile isWs ++ A.reverse.dropWhile isWs :=
    (List.takeWhile_append_dropWhile isWs A.reverse).symm
  have hAsplit : A = (A.reverse.dropWhile isWs).reverse ++
      (A.reverse.takeWhile isWs).reverse := by
    have h0 : A = (A.reverse.takeWhile isWs ++ A.reverse.dropWhile isWs).reverse := by
      rw [← hArev, List.reverse_reverse]
    rw [List.reverse_append] at h0
    exact h0
  calc l = l.takeWhile isWs ++ A := (List.takeWhile_append_dropWhile isWs l).symm
    _ = l.takeWhile isWs ++ ((A.reverse.dropWhile isWs).reverse ++
        (A.reverse.takeWhile isWs).reverse) := by rw [← hAsplit]
    _ = _ := by rw [trimWs, ← List.append_assoc]

theorem allWsSpace_of_sub {l l' : List Char} (hsub : l' ⊆ l)
    (h : allWsSpace l = true) : allWsSpace l' = true := by
  simp only [allWsSpace, List.all_eq_true] at h ⊢
  exact fun c hc => h c (hsub hc)

theorem allWsSpace_trimWs {l : List Char} (h : allWsSpace l = true) :
    allWsSpace (trimWs l) = true := by
  obtain ⟨s, t, hst⟩ := trimWs_decomp l
  refine allWsSpace_of_sub ?_ h
  intro c hc
  rw [hst]
  simp [hc]

theorem wsSeparated_trimWs {l : List Char} (h : WsSeparated l) :
    WsSeparated (trimWs l) := by
  obtain ⟨s, t, hst⟩ := trimWs_decomp l
  rw [hst] at h
  rw [WsSeparated, List.append_assoc, List.chain'_append] at h
  have h2 := h.2.1
  rw [List.chain'_append] at h2
  exact h2.1

theorem noEndWs_trimWs (l : List Char) : noEndWs (trimWs l) = true := by
  rw [noEndWs, Bool.and_eq_true]
  constructor
  · -- head of `trimWs l` is the last element of `dropWhile isWs (A.reverse)` reversed?
    rw [trimWs]
    cases hh : (((l.dropWhile isWs).reverse.dropWhile isWs).reverse).head? with
    | none => simp
    | some c =>
      -- head of the reverse = getLast of the dropWhile, which is the getLast
      -- of `A.reverse` (a preserved suffix end), i.e. the head of `A`
      rw [List.head?_reverse] at hh
      set A := l.dropWhile isWs with hA
      have hsfx : A.reverse.dropWhile isWs <:+ A.reverse := List.dropWhile_suffix isWs
      obtain ⟨spre, hspre⟩ := hsfx
      have hne : A.reverse.dropWhile isWs ≠ [] := by
        intro he
        rw [he] at hh
        simp at hh
      have : (A.reverse).getLast? = some c := by
        rw [← hspre, List.getLast?_append_of_ne_nil _ hne]
        exact hh
      rw [List.getLast?_reverse] at this
      have hc : isWs c = false := dropWhile_head_not this
      simp [hh, hc]
  · rw [trimWs]
    cases hh : (((l.dropWhile isWs).reverse.dropWhile isWs).reverse).getLast? with
    | none => simp
    | some c =>
      rw [List.getLast?_reverse] at hh
      have hc : isWs c = false := dropWhile_head_not hh
      simp [hh, hc]

/-- The `_strip_html` output has all whitespace collapsed: every whitespace
character is a single space, no two are adjacent, and none sits at either end. -/
theorem stripHtml_ws_collapsed (l : List Char) :
    allWsSpace (stripHtml l) = true ∧ WsSeparated (stripHtml l) ∧
      noEndWs (stripHtml l) = true := by
  refine ⟨?_, ?_, ?_⟩
  · exact allWsSpace_trimWs (allWsSpace_collapseWs _)
  · exact wsSeparated_trimWs (wsSeparated_collapseWs _)
  · exact noEndWs_trimWs _

/-! ### Script/style block removal -/

theorem isPrefixOf_head_ne {o c : Char} {os r : List Char} (h : o ≠ c) :
    (o :: os).isPrefixOf (c :: r) = false := by
  simp [List.isPrefixOf, h]

theorem isPrefixOf_append_self : ∀ (l y : List Char), l.isPrefixOf (l ++ y) = true
  | [], _ => by simp [List.isPrefixOf]
  | c :: cs, y => by simp [List.isPrefixOf, isPrefixOf_append_self cs y]

theorem removeBlocks_nil (opn cls : List Char) (hc : cls ≠ []) :
    removeBlocks opn cls hc [] = [] := by
  rw [removeBlocks]

theorem removeBlocks_cons_neg {opn cls : List Char} {hc : cls ≠ []} {c : Char}
    {r : List Char} (h : opn.isPrefixOf (c :: r) = false) :
    removeBlocks opn cls hc (c :: r) = c :: removeBlocks opn cls hc r := by
  rw [removeBlocks, if_neg (by simp [h])]

theorem removeBlocks_cons_match {opn cls : List Char} {hc : cls ≠ []} {c : Char}
    {r t : List Char} (h : opn.isPrefixOf (c :: r) = true)
    (hf : findSub cls ((c :: r).drop opn.length) = some t) :
    removeBlocks opn cls hc (c :: r) = removeBlocks opn cls hc t := by
  rw [removeBlocks, if_pos h]
  split
  · rename_i t' heq
    rw [hf] at heq
    simp only [Option.some.injEq] at heq
    rw [heq]
  · rename_i heq
    rw [hf] at heq
    exact absurd heq (by simp)

/-- The scan copies any `<`-free chunk verbatim when the open pattern starts
with `<`. -/
theorem removeBlocks_pass_no_lt {opn cls : List Char} {hc : cls ≠ []}
    {os : List Char} (hop : opn = '<' :: os) :
    ∀ (w z : List Char), '<' ∉ w →
      removeBlocks opn cls hc (w ++ z) = w ++ removeBlocks opn cls hc z
  | [], z, _ => by simp
  | c :: w', z, hw => by
    have hcne : '<' ≠ c := fun he => hw (he ▸ List.mem_cons_self _ _)
    rw [List.cons_append, removeBlocks_cons_neg (hop ▸ isPrefixOf_head_ne hcne),
      removeBlocks_pass_no_lt hop w' z (fun hx => hw (List.mem_cons_of_mem _ hx)),
      List.cons_append]

theorem findSub_pass_no_lt {cls : List Char} {cs : List Char}
    (hcl : cls = '<' :: cs) :
    ∀ (v z : List Char), '<' ∉ v → findSub cls (v ++ z) = findSub cls z
  | [], z, _ => by simp
  | c :: v', z, hv => by
    have hcne : '<' ≠ c := fun he => hv (he ▸ List.mem_cons_self _ _)
    rw [List.cons_append, findSub, if_neg (by simp [hcl ▸ isPrefixOf_head_ne hcne])]
    exact findSub_pass_no_lt hcl v' z (fun hx => hv (List.mem_cons_of_mem _ hx))

theorem findSub_self {cls : List Char} (hc : cls ≠ []) (y : List Char) :
    findSub cls (cls ++ y) = some y := by
  cases cls with
  | nil => exact absurd rfl hc
  | cons c cs =>
    rw [List.cons_append, findSub, if_pos (by
      rw [← List.cons_append]
      exact isPrefixOf_append_self (c :: cs) y)]
    rw [← List.cons_append, List.drop_left]

/-- Lazy-match removal: at an occurrence of `opn`, everything through the first
following occurrence of `cls` is deleted, and scanning resumes after it. -/
theorem removeBlocks_block {opn cls : List Char} {hc : cls ≠ []}
    {os cs : List Char} (hop : opn = '<' :: os) (hcl : cls = '<' :: cs)
    (x m y : List Char) (hx : '<' ∉ x) (hm : '<' ∉ m) :
    removeBlocks opn cls hc (x ++ (opn ++ '>' :: (m ++ (cls ++ y)))) =
      x ++ removeBlocks opn cls hc y := by
  subst hop
  rw [removeBlocks_pass_no_lt rfl x _ hx]
  congr 1
  have hfind : findSub cls ('>' :: (m ++ (cls ++ y))) = some y := by
    have h1 : findSub cls (('>' :: m) ++ (cls ++ y)) = findSub cls (cls ++ y) := by
      refine findSub_pass_no_lt hcl ('>' :: m) _ ?_
      simp only [List.mem_cons, not_or]
      exact ⟨by decide, hm⟩
    simp only [List.cons_append] at h1
    rw [h1, findSub_self hc]
  have hpre : ('<' :: os).isPrefixOf ('<' :: os ++ '>' :: (m ++ (cls ++ y))) = true :=
    isPrefixOf_append_self _ _
  have hdrop : ('<' :: os ++ '>' :: (m ++ (cls ++ y))).drop ('<' :: os).length =
      '>' :: (m ++ (cls ++ y)) := List.drop_left _ _
  rw [List.cons_append] at hpre hdrop
  rw [List.cons_append]
  exact removeBlocks_cons_match hpre (by rw [hdrop]; exact hfind)

/-- The literal `"<script>" ++ m ++ "</script>"`. -/
def scriptBlock (m : List Char) : List Char := scrO ++ '>' :: (m ++ scrC)

/-- The literal `"<style>" ++ m ++ "</style>"`. -/
def styleBlock (m : List Char) : List Char := styO ++ '>' :: (m ++ styC)

/-- The script-removal pass copies a style block (plus a `<`-free interior)
verbatim: none of its positions starts a `<script` match. -/
theorem removeScripts_pass_styleBlock (m y : List Char) (hm : '<' ∉ m) :
    removeBlocks scrO scrC scrC_ne (styleBlock m ++ y) =
      styleBlock m ++ removeBlocks scrO scrC scrC_ne y := by
  have hshape : styleBlock m ++ y =
      '<' :: (['s', 't', 'y', 'l', 'e', '>'] ++
        (m ++ ('<' :: (['/', 's', 't', 'y', 'l', 'e', '>'] ++ y)))) := by
    simp [styleBlock, styO, styC]
  rw [hshape]
  rw [removeBlocks_cons_neg (by simp [scrO, List.isPrefixOf])]
  rw [removeBlocks_pass_no_lt scrO_eq ['s', 't', 'y', 'l', 'e', '>'] _ (by decide)]
  rw [removeBlocks_pass_no_lt scrO_eq m _ hm]
  rw [removeBlocks_cons_neg (by simp [scrO, List.isPrefixOf])]
  rw [removeBlocks_pass_no_lt scrO_eq ['/', 's', 't', 'y', 'l', 'e', '>'] _ (by decide)]
  simp [styleBlock, styO, styC]

/-- `_strip_html` deletes a well-formed script element wholesale: the result is
as if the whole `<script>...</script>` span were absent from the input. -/
theorem stripHtml_removes_script (x m y : List Char) (hx : '<' ∉ x) (hm : '<' ∉ m) :
    stripHtml (x ++ scriptBlock m ++ y) = stripHtml (x ++ y) := by
  have hshape : x ++ scriptBlock m ++ y =
      x ++ (scrO ++ '>' :: (m ++ (scrC ++ y))) := by
    simp [scriptBlock]
  have h1 : removeBlocks scrO scrC scrC_ne (x ++ scriptBlock m ++ y) =
      x ++ removeBlocks scrO scrC scrC_ne y := by
    rw [hshape]
    exact removeBlocks_block scrO_eq scrC_eq x m y hx hm
  have h2 : removeBlocks scrO scrC scrC_ne (x ++ y) =
      x ++ removeBlocks scrO scrC scrC_ne y :=
    removeBlocks_pass_no_lt scrO_eq x y hx
  simp only [stripHtml, h1, h2]

/-- `_strip_html` deletes a well-formed style element wholesale. -/
theorem stripHtml_removes_style (x m y : List Char) (hx : '<' ∉ x) (hm : '<' ∉ m) :
    stripHtml (x ++ styleBlock m ++ y) = stripHtml (x ++ y) := by
  have h1 : removeBlocks scrO scrC scrC_ne (x ++ styleBlock m ++ y) =
      x ++ (styleBlock m ++ removeBlocks scrO scrC scrC_ne y) := by
    rw [List.append_assoc]
    rw [removeBlocks_pass_no_lt scrO_eq x _ hx]
    rw [removeScripts_pass_styleBlock m y hm]
  have h2 : removeBlocks scrO scrC scrC_ne (x ++ y) =
      x ++ removeBlocks scrO scrC scrC_ne y :=
    removeBlocks_pass_no_lt scrO_eq x y hx
  have h3 : removeBlocks styO styC styC_ne
      (x ++ (styleBlock m ++ removeBlocks scrO scrC scrC_ne y)) =
      x ++ removeBlocks styO styC styC_ne (removeBlocks scrO scrC scrC_ne y) := by
    have hshape : x ++ (styleBlock m ++ removeBlocks scrO scrC scrC_ne y) =
        x ++ (styO ++ '>' :: (m ++ (styC ++ removeBlocks scrO scrC scrC_ne y))) := by
      simp [styleBlock]
    rw [hshape]
    exact removeBlocks_block styO_eq styC_eq x m _ hx hm
  have h4 : removeBlocks styO styC styC_ne (x ++ removeBlocks scrO scrC scrC_ne y) =
      x ++ removeBlocks styO styC styC_ne (removeBlocks scrO scrC scrC_ne y) :=
    removeBlocks_pass_no_lt styO_eq x _ hx
  simp only [stripHtml, h1, h2, h3, h4]

/-! ### Charset decoding: `_decode_header` and payload decoding

Python calls `bytes.decode(charset, errors="ignore")` inside
`try ... except LookupError`, falling back to
`bytes.decode("utf-8", errors="ignore")` for unknown codec names. -/

/-- UTF-8 decoding of arbitrary bytes; `repl` is emitted for each maximal
invalid subpart (`[]` models `errors="ignore"`, a replacement character
models `errors="replace"`). -/
def utf8Decode (repl : List Char) : List Nat → List Char
  | [] => []
  | b :: r =>
    if b < 0x80 then Char.ofNat b :: utf8Decode repl r
    else if 0xC2 ≤ b && b ≤ 0xDF then
      match hr : r with
      | b2 :: r2 =>
        if 0x80 ≤ b2 && b2 ≤ 0xBF then
          Char.ofNat ((b - 0xC0) * 64 + (b2 - 0x80)) :: utf8Decode repl r2
        else repl ++ utf8Decode repl r
      | [] => repl
    else if 0xE0 ≤ b && b ≤ 0xEF then
      match hr : r with
      | b2 :: r2 =>
        if (if b = 0xE0 then 0xA0 ≤ b2 && b2 ≤ 0xBF
            else if b = 0xED then 0x80 ≤ b2 && b2 ≤ 0x9F
            else 0x80 ≤ b2 && b2 ≤ 0xBF) then
          match hr2 : r2 with
          | b3 :: r3 =>
            if 0x80 ≤ b3 && b3 ≤ 0xBF then
              Char.ofNat ((b - 0xE0) * 4096 + (b2 - 0x80) * 64 + (b3 - 0x80)) ::
                utf8Decode repl r3
            else repl ++ utf8Decode repl r2
          | [] => repl
        else repl ++ utf8Decode repl r
      | [] => repl
    else if 0xF0 ≤ b && b ≤ 0xF4 then
      match hr : r with
      | b2 :: r2 =>
        if (if b = 0xF0 then 0x90 ≤ b2 && b2 ≤ 0xBF
            else if b = 0xF4 then 0x80 ≤ b2 && b2 ≤ 0x8F
            else 0x80 ≤ b2 && b2 ≤ 0xBF) then
          match hr2 : r2 with
          | b3 :: r3 =>
            if 0x80 ≤ b3 && b3 ≤ 0xBF then
              match hr3 : r3 with
              | b4 :: r4 =>
                if 0x80 ≤ b4 && b4 ≤ 0xBF then
                  Char.ofNat ((b - 0xF0) * 262144 + (b2 - 0x80) * 4096 +
                      (b3 - 0x80) * 64 + (b4 - 0x80)) :: utf8Decode repl r4
                else repl ++ utf8Decode repl r3
              | [] => repl
            else repl ++ utf8Decode repl r2
          | [] => repl
        else repl ++ utf8Decode repl r
      | [] => repl
    else repl ++ utf8Decode repl r
termination_by l => l.length
decreasing_by all_goals (subst_vars; simp only [List.length_cons]; omega)

/-- `bytes.decode("utf-8", errors="ignore")`: invalid subparts are dropped. -/
def utf8Ignore : List Nat → List Char := utf8Decode []

/-- `bytes.decode("utf-8", errors="replace")`: invalid subparts become U+FFFD.
This is what "invalid-byte substitution" denotes. -/
def utf8Replace : List Nat → List Char := utf8Decode ['\uFFFD']

/-- The codec registry (Python codec database): known names map to total
decode functions (all call sites pass `errors="ignore"`, so a known codec
never raises); an unknown name raises `LookupError`, modelled as `none`. -/
def Registry : Type := List (String × (List Nat → List Char))

def lookupCodec (reg : Registry) (cs : String) : Option (List Nat → List Char) :=
  List.lookup cs reg

/-- The `try: bs.decode(cs, "ignore") except LookupError: bs.decode("utf-8",
"ignore")` pattern shared by `_decode_header` and `_get_body`. -/
def pyDecode (reg : Registry) (cs : String) (bs : List Nat) : List Char :=
  match lookupCodec reg cs with
  | some codec => codec bs
  | none => utf8Ignore bs

/-- One fragment of `email.header.decode_header`: either an already-decoded
string or raw bytes tagged with an optional charset. -/
inductive Fragment
  | str (s : List Char)
  | bytes (bs : List Nat) (charset : Option String)

/-- `MboxSyncer._decode_header` applied to the fragment list: bytes fragments
decode with their charset (default `utf-8`), strings pass through, and the
pieces concatenate. -/
def decodeHeaderFrags (reg : Registry) (frags : List Fragment) : List Char :=
  (frags.map (fun f =>
    match f with
    | .str s => s
    | .bytes bs cs => pyDecode reg (cs.getD "utf-8") bs)).flatten

/-! ### MIME messages: `MboxSyncer._get_body` -/

/-- One part yielded by `msg.walk()` (container parts appear with a
`multipart/...` content type and no decodable payload). -/
structure Leaf where
  filename : Option String
  ctype : String
  charset : Option String
  payload : Option (List Nat)

/-- `part.get_content_maintype()`: the segment of the content type before `/`. -/
def maintypeOf (ct : String) : String := String.mk (ct.data.takeWhile (fun c => c ≠ '/'))

/-- A message as `_get_body` sees it: either non-multipart with a single
payload, or multipart with its `walk()` sequence of parts. -/
inductive Msg
  | single (charset : Option String) (payload : Option (List Nat))
  | multi (parts : List Leaf)

/-- Decoded text of a part, per the loop body of `_get_body`. -/
def leafText (reg : Registry) (p : Leaf) : List Char :=
  pyDecode reg (p.charset.getD "utf-8") (p.payload.getD [])

/-- One iteration of the `for part in msg.walk()` loop in `_get_body`. -/
def bodyStep (reg : Registry) (parts : List (List Char)) (p : Leaf) :
    List (List Char) :=
  if maintypeOf p.ctype = "multipart" then parts
  else if p.filename.isSome then parts
  else match p.payload with
    | none => parts
    | some bs =>
      let text := pyDecode reg (p.charset.getD "utf-8") bs
      if p.ctype = "text/plain" then parts ++ [text]
      else if p.ctype = "text/html" ∧ parts = [] then parts ++ [stripHtml text]
      else parts

/-- `MboxSyncer._get_body`. -/
def getBody (reg : Registry) : Msg → List Char
  | .single cs payload =>
    match payload with
    | some bs => pyDecode reg (cs.getD "utf-8") bs
    | none => "None".toList
  | .multi parts => List.intercalate ['\n'] (parts.foldl (bodyStep reg) [])

/-- A part that can contribute body text: not a container, no filename,
payload present. -/
def Elig (p : Leaf) : Prop :=
  maintypeOf p.ctype ≠ "multipart" ∧ p.filename = none ∧ p.payload.isSome = true

def EligPlain (p : Leaf) : Prop := Elig p ∧ p.ctype = "text/plain"

def EligHtml (p : Leaf) : Prop := Elig p ∧ p.ctype = "text/html"

instance (p : Leaf) : Decidable (Elig p) := by unfold Elig; infer_instance
instance (p : Leaf) : Decidable (EligPlain p) := by unfold EligPlain; infer_instance
instance (p : Leaf) : Decidable (EligHtml p) := by unfold EligHtml; infer_instance

/-- The decoded texts of the eligible plain-text parts, in walk order. -/
def plainTexts (reg : Registry) (parts : List Leaf) : List (List Char) :=
  parts.filterMap (fun p => if EligPlain p then some (leafText reg p) else none)

/-- Scans the walk order: `true` iff no eligible HTML part occurs before the
first eligible plain-text part (`seen` records whether a plain part occurred). -/
def plainFirst (seen : Bool) : List Leaf → Bool
  | [] => true
  | p :: r =>
    if decide (EligHtml p) && !seen then false
    else plainFirst (seen || decide (EligPlain p)) r

theorem eligPlain_not_html {p : Leaf} (h : EligPlain p) : ¬ EligHtml p := by
  intro hh
  have h1 := h.2
  have h2 := hh.2
  rw [h1] at h2
  exact absurd h2 (by decide)

theorem bodyStep_plain {reg : Registry} {p : Leaf} (h : EligPlain p)
    (acc : List (List Char)) : bodyStep reg acc p = acc ++ [leafText reg p] := by
  obtain ⟨⟨hmt, hfn, hpl⟩, hct⟩ := h
  obtain ⟨bs, hbs⟩ := Option.isSome_iff_exists.mp hpl
  simp [bodyStep, hmt, hfn, hbs, hct, leafText] <;> decide

theorem bodyStep_html_nil {reg : Registry} {p : Leaf} (h : EligHtml p) :
    bodyStep reg [] p = [stripHtml (leafText reg p)] := by
  obtain ⟨⟨hmt, hfn, hpl⟩, hct⟩ := h
  obtain ⟨bs, hbs⟩ := Option.isSome_iff_exists.mp hpl
  simp [bodyStep, hmt, hfn, hbs, hct, leafText] <;> decide

theorem bodyStep_html_ne {reg : Registry} {p : Leaf} (h : EligHtml p)
    {acc : List (List Char)} (hacc : acc ≠ []) : bodyStep reg acc p = acc := by
  obtain ⟨⟨hmt, hfn, hpl⟩, hct⟩ := h
  obtain ⟨bs, hbs⟩ := Option.isSome_iff_exists.mp hpl
  simp [bodyStep, hmt, hfn, hbs, hct, hacc] <;> decide

theorem bodyStep_other {reg : Registry} {p : Leaf} (hp : ¬ EligPlain p)
    (hh : ¬ EligHtml p) (acc : List (List Char)) : bodyStep reg acc p = acc := by
  by_cases hmt : maintypeOf p.ctype = "multipart"
  · simp [bodyStep, hmt]
  · by_cases hfn : p.filename.isSome
    · simp [bodyStep, hmt, hfn]
    · cases hbs : p.payload with
      | none => simp [bodyStep, hmt, hfn, hbs]
      | some bs =>
        have helig : Elig p := ⟨hmt, by simpa using hfn, by simp [hbs]⟩
        have hct1 : p.ctype ≠ "text/plain" := fun hc => hp ⟨helig, hc⟩
        have hct2 : p.ctype ≠ "text/html" := fun hc => hh ⟨helig, hc⟩
        simp [bodyStep, hmt, hfn, hbs, hct1, hct2]

theorem plainTexts_cons_plain {reg : Registry} {p : Leaf} (h : EligPlain p)
    (r : List Leaf) :
    plainTexts reg (p :: r) = leafText reg p :: plainTexts reg r := by
  simp [plainTexts, List.filterMap_cons, h]

theorem plainTexts_cons_other {reg : Registry} {p : Leaf} (h : ¬ EligPlain p)
    (r : List Leaf) : plainTexts reg (p :: r) = plainTexts reg r := by
  simp [plainTexts, List.filterMap_cons, h]

theorem plainTexts_eq_nil {reg : Registry} : ∀ {parts : List Leaf},
    (∀ p ∈ parts, ¬ EligPlain p) → plainTexts reg parts = [] := by
  intro parts
  induction parts with
  | nil => intro _; rfl
  | cons p r ih =>
    intro h
    rw [plainTexts_cons_other (h p (List.mem_cons_self _ _))]
    exact ih (fun q hq => h q (List.mem_cons_of_mem _ hq))

/-- Once some part has contributed, only plain parts contribute afterwards. -/
theorem foldl_bodyStep_of_ne {reg : Registry} : ∀ (parts : List Leaf)
    (acc : List (List Char)), acc ≠ [] →
    parts.foldl (bodyStep reg) acc = acc ++ plainTexts reg parts := by
  intro parts
  induction parts with
  | nil => intro acc _; simp [plainTexts]
  | cons p r ih =>
    intro acc hacc
    rw [List.foldl_cons]
    by_cases hp : EligPlain p
    · rw [bodyStep_plain hp, ih _ (by simp), plainTexts_cons_plain hp,
        List.append_assoc]
      rfl
    · by_cases hh : EligHtml p
      · rw [bodyStep_html_ne hh hacc, ih _ hacc, plainTexts_cons_other hp]
      · rw [bodyStep_other hp hh, ih _ hacc, plainTexts_cons_other hp]

theorem plainFirst_cons_html {p : Leaf} (h : EligHtml p) (seen : Bool)
    (r : List Leaf) :
    plainFirst seen (p :: r) =
      if seen then plainFirst (seen || decide (EligPlain p)) r else false := by
  cases seen <;> simp [plainFirst, h]

theorem plainFirst_cons_not_html {p : Leaf} (h : ¬ EligHtml p) (seen : Bool)
    (r : List Leaf) :
    plainFirst seen (p :: r) = plainFirst (seen || decide (EligPlain p)) r := by
  simp [plainFirst, h]

/-- If no eligible HTML part precedes the first eligible plain part, the fold
collects exactly the plain texts. -/
theorem foldl_bodyStep_plainFirst {reg : Registry} : ∀ (parts : List Leaf)
    (acc : List (List Char)) (seen : Bool),
    plainFirst seen parts = true → (seen = false ↔ acc = []) →
    parts.foldl (bodyStep reg) acc = acc ++ plainTexts reg parts := by
  intro parts
  induction parts with
  | nil => intro acc seen _ _; simp [plainTexts]
  | cons p r ih =>
    intro acc seen hpf hiff
    rw [List.foldl_cons]
    by_cases hp : EligPlain p
    · rw [bodyStep_plain hp]
      rw [plainFirst_cons_not_html (eligPlain_not_html hp)] at hpf
      rw [ih (acc ++ [leafText reg p]) (seen || decide (EligPlain p)) hpf
          (by simp [hp]),
        plainTexts_cons_plain hp, List.append_assoc]
      rfl
    · by_cases hh : EligHtml p
      · rw [plainFirst_cons_html hh] at hpf
        cases hseen : seen with
        | false => rw [hseen] at hpf; simp at hpf
        | true =>
          rw [hseen] at hpf
          simp only [if_pos rfl] at hpf
          have hacc : acc ≠ [] := by
            intro he
            exact absurd (hiff.mpr he) (by simp [hseen])
          rw [bodyStep_html_ne hh hacc, plainTexts_cons_other hp]
          refine ih acc (true || decide (EligPlain p)) (by simpa using hpf) ?_
          simp [hacc]
      · rw [plainFirst_cons_not_html hh] at hpf
        rw [bodyStep_other hp hh, plainTexts_cons_other hp]
        refine ih acc (seen || decide (EligPlain p)) hpf ?_
        simpa [hp] using hiff

/-- If no eligible plain part exists, the fold yields the first eligible HTML
part stripped, or nothing. -/
theorem foldl_bodyStep_no_plain {reg : Registry} : ∀ (parts : List Leaf),
    (∀ p ∈ parts, ¬ EligPlain p) →
    parts.foldl (bodyStep reg) [] =
      (match parts.find? (fun p => decide (EligHtml p)) with
       | some p => [stripHtml (leafText reg p)]
       | none => []) := by
  intro parts
  induction parts with
  | nil => intro _; rfl
  | cons p r ih =>
    intro h
    rw [List.foldl_cons]
    by_cases hh : EligHtml p
    · rw [bodyStep_html_nil hh,
        foldl_bodyStep_of_ne r [stripHtml (leafText reg p)] (by simp),
        plainTexts_eq_nil (fun q hq => h q (List.mem_cons_of_mem _ hq))]
      rw [List.find?_cons_of_pos _ (by simpa using hh)]
      simp
    · rw [bodyStep_other (h p (List.mem_cons_self _ _)) hh,
        ih (fun q hq => h q (List.mem_cons_of_mem _ hq)),
        List.find?_cons_of_neg _ (by simpa using hh)]

theorem intercalate_single (sep : List Char) (x : List Char) :
    List.intercalate sep [x] = x := by
  simp [List.intercalate, List.intersperse]

/-- When a plain part precedes every HTML part, `_get_body` returns exactly
the newline-joined plain texts (no HTML-derived content). -/
theorem getBody_plain_priority (reg : Registry) (parts : List Leaf)
    (hpf : plainFirst false parts = true) :
    getBody reg (.multi parts) =
      List.intercalate ['\n'] (plainTexts reg parts) := by
  rw [getBody, foldl_bodyStep_plainFirst parts [] false hpf (by simp)]
  rfl

/-- When no plain part exists, `_get_body` returns the first eligible HTML
part with tags stripped (or the empty body). -/
theorem getBody_html_fallback (reg : Registry) (parts : List Leaf)
    (h : ∀ p ∈ parts, ¬ EligPlain p) :
    getBody reg (.multi parts) =
      (match parts.find? (fun p => decide (EligHtml p)) with
       | some p => stripHtml (leafText reg p)
       | none => []) := by
  rw [getBody, foldl_bodyStep_no_plain parts h]
  cases parts.find? (fun p => decide (EligHtml p)) with
  | none => rfl
  | some p => exact intercalate_single _ _

/-! ### `FastMbox._generate_toc` (mbox boundary scan) -/

/-- The separator pattern `b"\nFrom "`. -/
def mboxPat : List Nat := [10, 70, 114, 111, 109, 32]

/-- `re.finditer(br"\nFrom ", mm)`: start offsets of the non-overlapping
matches, scanning left to right, resuming after each match. -/
def patMatches : List Nat → Nat → List Nat
  | [], _ => []
  | c :: r, pos =>
    if mboxPat.isPrefixOf (c :: r) then
      pos :: patMatches ((c :: r).drop 6) (pos + 6)
    else patMatches r (pos + 1)
termination_by l _ => l.length
decreasing_by
  · simp only [List.length_drop, List.length_cons]
    omega
  · simp

/-- The table-building part of `FastMbox._generate_toc`, run over the
successfully mapped bytes: `starts = [0] + [m.start()+1, ...]`,
`stops = [m.start()+1, ...] + [len(mm)]`, paired up in order. -/
def tocPairs (file : List Nat) : List (Nat × Nat) :=
  List.zip (0 :: (patMatches file 0).map (· + 1))
    ((patMatches file 0).map (· + 1) ++ [file.length])

/-- `FastMbox._generate_toc`: `mmap.mmap(f.fileno(), 0, ...)` raises
`ValueError` on a zero-length file (CPython cannot map an empty file), so the
scan yields a table only for non-empty files and raises otherwise. -/
def generateToc (file : List Nat) : Except String (List (Nat × Nat)) :=
  if file = [] then .error "ValueError: cannot mmap an empty file"
  else .ok (tocPairs file)

theorem isPrefixOf_length_le {α : Type} [BEq α] :
    ∀ (pat l : List α), pat.isPrefixOf l = true → pat.length ≤ l.length
  | [], _, _ => by simp
  | p :: ps, [], h => by simp [List.isPrefixOf] at h
  | p :: ps, c :: r, h => by
    simp only [List.isPrefixOf, Bool.and_eq_true] at h
    simp only [List.length_cons]
    exact Nat.succ_le_succ (isPrefixOf_length_le ps r h.2)

theorem patMatches_facts : ∀ (l : List Nat) (pos : Nat),
    (patMatches l pos).Chain' (fun a b => a + 6 ≤ b) ∧
    ∀ q ∈ patMatches l pos, pos ≤ q ∧ q + 6 ≤ pos + l.length
  | [], pos => by simp [patMatches]
  | c :: r, pos => by
    by_cases hp : mboxPat.isPrefixOf (c :: r)
    · rw [patMatches, if_pos hp]
      have hlen : 6 ≤ (c :: r).length := isPrefixOf_length_le mboxPat (c :: r) hp
      obtain ⟨hch, hmem⟩ := patMatches_facts ((c :: r).drop 6) (pos + 6)
      constructor
      · rw [List.chain'_cons']
        refine ⟨?_, hch⟩
        intro b hb
        have hmb : b ∈ patMatches ((c :: r).drop 6) (pos + 6) :=
          List.mem_of_mem_head? hb
        exact (hmem b hmb).1
      · intro q hq
        rcases List.mem_cons.mp hq with hq | hq
        · subst hq
          exact ⟨Nat.le_refl _, by simpa using hlen⟩
        · obtain ⟨h1, h2⟩ := hmem q hq
          refine ⟨by omega, ?_⟩
          rw [List.length_drop] at h2
          omega
    · rw [patMatches, if_neg hp]
      obtain ⟨hch, hmem⟩ := patMatches_facts r (pos + 1)
      refine ⟨hch, fun q hq => ?_⟩
      obtain ⟨h1, h2⟩ := hmem q hq
      simp only [List.length_cons]
      omega
termination_by l _ => l.length
decreasing_by
  · simp only [List.length_drop, List.length_cons]
    omega
  · simp

theorem zipToc_length : ∀ (s : Nat) (ps : List Nat) (len : Nat),
    (List.zip (s :: ps) (ps ++ [len])).length = ps.length + 1
  | _, [], _ => rfl
  | s, p :: ps, len => by
    simp only [List.cons_append, List.zip_cons_cons, List.length_cons]
    rw [zipToc_length p ps len]

theorem zipToc_chain : ∀ (s : Nat) (ps : List Nat) (len : Nat),
    (List.zip (s :: ps) (ps ++ [len])).Chain' (fun a b => a.2 = b.1)
  | _, [], _ => by simp
  | s, p :: ps, len => by
    simp only [List.cons_append, List.zip_cons_cons]
    rw [List.chain'_cons']
    refine ⟨?_, zipToc_chain p ps len⟩
    intro b hb
    cases ps with
    | nil =>
      simp only [List.nil_append, List.zip_cons_cons, List.zip_nil_left,
        List.head?_cons] at hb
      have : (p, len) = b := by simpa using hb
      rw [← this]
    | cons p2 ps2 =>
      simp only [List.cons_append, List.zip_cons_cons, List.head?_cons] at hb
      have : (p, p2) = b := by simpa using hb
      rw [← this]

theorem zipToc_head (s : Nat) (ps : List Nat) (len : Nat) :
    ((List.zip (s :: ps) (ps ++ [len])).head?).map Prod.fst = some s := by
  cases ps with
  | nil => rfl
  | cons p ps2 => simp

theorem zipToc_getLast : ∀ (s : Nat) (ps : List Nat) (len : Nat),
    ((List.zip (s :: ps) (ps ++ [len])).getLast?).map Prod.snd = some len
  | _, [], _ => rfl
  | s, p :: ps, len => by
    simp only [List.cons_append, List.zip_cons_cons]
    rw [List.getLast?_cons]
    have h := zipToc_getLast p ps len
    cases hg : (List.zip (p :: ps) (ps ++ [len])).getLast? with
    | none =>
      rw [hg] at h
      simp at h
    | some b =>
      rw [hg] at h
      simpa [hg] using h

theorem zipToc_mem_le : ∀ (s : Nat) (ps : List Nat) (len : Nat),
    List.Pairwise (· ≤ ·) (s :: (ps ++ [len])) →
    ∀ b ∈ List.zip (s :: ps) (ps ++ [len]), b.1 ≤ b.2
  | s, [], len, hp => by
    intro b hb
    simp only [List.nil_append, List.zip_cons_cons, List.zip_nil_left] at hb
    rcases List.mem_singleton.mp hb with rfl
    exact (List.pairwise_cons.mp hp).1 len (by simp)
  | s, p :: ps, len, hp => by
    intro b hb
    simp only [List.cons_append, List.zip_cons_cons] at hb
    rcases List.mem_cons.mp hb with hb | hb
    · rw [hb]
      exact (List.pairwise_cons.mp hp).1 p (by simp)
    · exact zipToc_mem_le p ps len
        (by simpa using (List.pairwise_cons.mp hp).2) b hb

theorem chain_add6_mem : ∀ {x : Nat} {xs : List Nat},
    (x :: xs).Chain' (fun a b => a + 6 ≤ b) → ∀ q ∈ xs, x + 6 ≤ q := by
  intro x xs
  induction xs generalizing x with
  | nil => intro _ q hq; simp at hq
  | cons y ys ih =>
    intro hch q hq
    obtain ⟨h1, h2⟩ := List.chain'_cons.mp hch
    rcases List.mem_cons.mp hq with hq | hq
    · omega
    · have := ih h2 q hq
      omega

theorem chain_add6_pairwise : ∀ {l : List Nat},
    l.Chain' (fun a b => a + 6 ≤ b) → l.Pairwise (· ≤ ·) := by
  intro l
  induction l with
  | nil => intro _; exact List.Pairwise.nil
  | cons x xs ih =>
    intro hch
    refine List.Pairwise.cons ?_ (ih (List.Chain'.tail hch))
    intro q hq
    have := chain_add6_mem hch q hq
    omega

/-- Structure of the boundary table: one boundary per separator match plus
one, contiguous (`stop i = start (i+1)`), starting at offset 0, ending at the
file length, each boundary with `start ≤ stop`.  The table is never empty. -/
theorem tocPairs_props (file : List Nat) :
    (tocPairs file).length = (patMatches file 0).length + 1 ∧
    (tocPairs file).Chain' (fun a b => a.2 = b.1) ∧
    ((tocPairs file).head?).map Prod.fst = some 0 ∧
    ((tocPairs file).getLast?).map Prod.snd = some file.length ∧
    ∀ b ∈ tocPairs file, b.1 ≤ b.2 := by
  obtain ⟨hch, hmem⟩ := patMatches_facts file 0
  refine ⟨?_, zipToc_chain _ _ _, zipToc_head _ _ _, zipToc_getLast _ _ _, ?_⟩
  · rw [tocPairs, zipToc_length, List.length_map]
  · refine zipToc_mem_le _ _ _ ?_
    refine List.pairwise_cons.mpr ⟨fun q _ => Nat.zero_le q, ?_⟩
    rw [List.pairwise_append]
    refine ⟨?_, by simp, ?_⟩
    · rw [List.pairwise_map]
      refine List.Pairwise.imp ?_ (chain_add6_pairwise hch)
      intro a b hab
      omega
    · intro a ha b hb
      rcases List.mem_singleton.mp hb with rfl
      obtain ⟨q, hq, hq1⟩ := List.mem_map.mp ha
      have := (hmem q hq).2
      omega

/-! ### `MboxSyncer._parse_email` -/

/-- An email record (`models.Email`). -/
structure Email where
  id : String
  message_id : String
  thread_id : String
  subject : List Char
  sender : String
  recipients : List String
  date : String
  body : List Char
  labels : List String
  snippet : List Char
  attachments : List (String × String × Nat)

/-- Stdlib collaborators used by `_parse_email`:
`email.utils.parsedate_to_datetime` (raising on a bad date, hence `Option`),
`email.utils.parseaddr` (second component), `email.utils.getaddresses`,
and `email.header.decode_header` (the fragment list it returns). -/
structure ParseEnv where
  parseDate : String → Option String
  parseAddr : List Char → String
  getAddresses : List Char → List (String × String)
  headerFrags : String → List Fragment

/-- The message as `_parse_email` sees it: raw header values (absent header =
`none`) plus the MIME content consumed by `_get_body` and the attachment walk. -/
structure PyMsg where
  messageId : Option String
  dateHdr : Option String
  fromHdr : Option String
  toHdr : Option String
  ccHdr : Option String
  subjectHdr : Option String
  content : Msg

/-- `msg.walk()` parts used by the attachment loop (run only when
`msg.is_multipart()`). -/
def walkParts : Msg → List Leaf
  | .single _ _ => []
  | .multi parts => parts

/-- `MboxSyncer._decode_header` on a raw header string: empty input short
circuits to the empty string, otherwise the fragments are decoded and joined. -/
def decodeHdr (env : ParseEnv) (reg : Registry) (v : String) : List Char :=
  if v = "" then [] else decodeHeaderFrags reg (env.headerFrags v)

def synthId (index : Nat) : String := "mbox-" ++ toString index

/-- `msg.get(field)` follow-up `if header_value:` then decode and extract
addresses. -/
def recipientsOf (env : ParseEnv) (reg : Registry) (hdr : Option String) :
    List String :=
  match hdr with
  | some s => if s = "" then []
      else (env.getAddresses (decodeHdr env reg s)).map Prod.snd
  | none => []

/-- `MboxSyncer._parse_email`.  The modelled operations never raise, so the
`except`-returns-`None` path is unreachable and the result is always `some`. -/
def parseEmail (env : ParseEnv) (reg : Registry) (msg : PyMsg) (index : Nat)
    (now : String) : Option Email :=
  let message_id := match msg.messageId with
    | some s => if s = "" then synthId index else s
    | none => synthId index
  let date := match msg.dateHdr with
    | some s => if s = "" then now else (env.parseDate s).getD now
    | none => now
  let sender := env.parseAddr (decodeHdr env reg (msg.fromHdr.getD ""))
  let recipients := recipientsOf env reg msg.toHdr ++ recipientsOf env reg msg.ccHdr
  let body := getBody reg msg.content
  let snip := trimWs ((body.take 100).map (fun c => if c = '\n' then ' ' else c))
  let attachments := (walkParts msg.content).filterMap (fun p =>
    p.filename.map (fun f => (f, p.ctype, (p.payload.getD []).length)))
  let subj := decodeHdr env reg (msg.subjectHdr.getD "(No Subject)")
  some { id := message_id
         message_id := message_id
         thread_id := message_id
         subject := if subj = [] then "(No Subject)".toList else subj
         sender := sender
         recipients := recipients
         date := date
         body := body
         labels := []
         snippet := snip
         attachments := attachments }

/-! ### `OllamaEmbedder.generate_embeddings_batch` -/

/-- One backend response to `client.embed`: `none` models a raised exception,
`some none` a response without an `embeddings` key, `some (some l)` a
response whose `embeddings` field is `l`. -/
def EmbedResp : Type := Option (Option (List (List ℚ)))

/-- `OllamaEmbedder.generate_embedding`: the first embedding of a successful
response with a non-empty `embeddings` list, otherwise `None`. -/
def generateEmbedding (resp : EmbedResp) : Option (List ℚ) :=
  match resp with
  | some (some (v :: _)) => some v
  | _ => none

/-- `generate_embeddings_batch`: `embeddings = [None] * len(texts)`, then each
completed future writes its result at its submission index.  `order` is the
completion order produced by `as_completed`; `resps i` is the backend response
for text `i`. -/
def runBatch (resps : Nat → EmbedResp) (n : Nat) (order : List Nat) :
    List (Option (List ℚ)) :=
  order.foldl (fun slots i => slots.set i (generateEmbedding (resps i)))
    (List.replicate n none)

/-! ### `EmailSearcher.search` -/

/-- Metadata stored with each vector-index entry.  The `labels` field models
the JSON-encoded labels array already parsed (the search code runs
`json.loads(metadata.get("labels", "[]"))`). -/
structure Meta where
  message_id : Option String
  thread_id : String
  subject : List Char
  sender : String
  date : String
  snippet : List Char
  labels : Option (List String)
deriving DecidableEq

/-- One raw hit `(email_id, distance, metadata)` from `vector_store.search`. -/
structure Hit where
  id : String
  distance : ℚ
  md : Meta
deriving DecidableEq

/-- Modelled from the spec: the external vector store (`vector_store.py` is
outside the analysed sources).  Per the collaborator contract it holds a
ranked hit list (ascending by distance), `query(embedding, k)` returns the
top `k` of it, `count()` its length, and `get_email_by_id` looks up the
stored document. -/
structure VStore where
  hits : List Hit
  docs : String → Option (List Char)

/-- The DedupKey: `metadata.get("message_id", email_id)`. -/
def hitKey (h : Hit) : String := h.md.message_id.getD h.id

/-- One assignment of the dedup dict loop:
`if message_id not in dedup or distance < dedup[message_id][1]:
dedup[message_id] = (email_id, distance, metadata)`.  A Python dict keeps the
insertion position on overwrite, so overwriting replaces in place and a new
key appends. -/
def dedupStep (m : List (String × Hit)) (h : Hit) : List (String × Hit) :=
  match List.lookup (hitKey h) m with
  | none => m ++ [(hitKey h, h)]
  | some old =>
    if h.distance < old.distance then
      m.map (fun e => if e.1 = hitKey h then (hitKey h, h) else e)
    else m

/-- The dedup dict built over a hit list. -/
def dedupAll (l : List Hit) : List (String × Hit) := l.foldl dedupStep []

/-- The adaptive-fetch `while True` loop of `EmailSearcher.search`, with
explicit fuel: `none` means the fuel ran out before the loop broke. -/
def searchLoop (st : VStore) (n total : Nat) :
    Nat → Nat → List Hit → Option (List Hit)
  | 0, _, _ => none
  | fuel + 1, fetch, acc =>
    let res := st.hits.take fetch
    if res = [] then some acc
    else
      let acc2 := acc ++ res
      if n ≤ (dedupAll acc2).length ∨ total ≤ fetch then some acc2
      else searchLoop st n total fuel (min (fetch * 2) total) acc2

/-- The hits accumulated when the loop breaks, entered with
`fetch_count = min(n_results * 2, total_count)` and enough fuel
(`searchLoop_some` below shows `total_count + 2` iterations always suffice). -/
def searchAccum (st : VStore) (n : Nat) : List Hit :=
  (searchLoop st n st.hits.length (st.hits.length + 2)
    (min (n * 2) st.hits.length) []).getD []

/-- `sorted(dedup.values(), key=lambda x: x[1])[:n_results]`. -/
def rankedHits (st : VStore) (n : Nat) : List Hit :=
  (List.mergeSort ((dedupAll (searchAccum st n)).map Prod.snd)
    (fun a b => decide (a.distance ≤ b.distance))).take n

structure SearchResult where
  email : Email
  score : ℚ
  distance : ℚ

/-- Materialization of one surviving hit: `get_email_by_id`, the `Email(...)`
construction, and `score = 1.0 - distance`; a failed lookup drops the hit. -/
def mkResult (st : VStore) (h : Hit) : Option SearchResult :=
  (st.docs h.id).map (fun doc =>
    { email :=
        { id := h.id
          message_id := h.md.message_id.getD h.id
          thread_id := h.md.thread_id
          subject := h.md.subject
          sender := h.md.sender
          recipients := []
          date := h.md.date
          body := doc
          labels := (h.md.labels).getD []
          snippet := h.md.snippet
          attachments := [] }
      score := 1 - h.distance
      distance := h.distance })

/-- `EmailSearcher.search`: `emb` is the query embedding (`none` when
`generate_embedding` failed). -/
def search (st : VStore) (emb : Option (List ℚ)) (n : Nat) : List SearchResult :=
  match emb with
  | none => []
  | some _ =>
    if searchAccum st n = [] then []
    else (rankedHits st n).filterMap (mkResult st)

/-- The loop needs at most `total + 1 - fetch` iterations: each pass that does
not break strictly increases `fetch_count` (it doubles, capped at
`total_count`), so the second stop condition is eventually reached. -/
theorem searchLoop_isSome (st : VStore) (n total : Nat) :
    ∀ (fuel fetch : Nat) (acc : List Hit), fetch ≤ total →
      total + 1 ≤ fuel + fetch → (searchLoop st n total fuel fetch acc).isSome := by
  intro fuel
  induction fuel with
  | zero => intro fetch acc h1 h2; omega
  | succ fuel ih =>
    intro fetch acc h1 h2
    rw [searchLoop]
    by_cases hres : st.hits.take fetch = []
    · simp [hres]
    · simp only [hres, if_neg]
      by_cases hstop : n ≤ (dedupAll (acc ++ st.hits.take fetch)).length ∨ total ≤ fetch
      · simp [hstop]
      · simp only [hstop, if_true, if_false, if_neg]
        have hfetch1 : 1 ≤ fetch := by
          rcases Nat.eq_zero_or_pos fetch with h0 | h0
          · subst h0; simp at hres
          · exact h0
        have hlt : fetch < total := by
          rcases Nat.lt_or_ge fetch total with h | h
          · exact h
          · exact absurd (Or.inr h) hstop
        refine ih (min (fetch * 2) total) (acc ++ st.hits.take fetch)
          (Nat.min_le_right _ _) ?_
        have : fetch + 1 ≤ min (fetch * 2) total := by
          refine Nat.le_min.mpr ⟨by omega, by omega⟩
        omega

/-- Hits accumulated by the loop come from the store. -/
theorem searchLoop_mem (st : VStore) (n total : Nat) :
    ∀ (fuel fetch : Nat) (acc acc2 : List Hit),
      (∀ h ∈ acc, h ∈ st.hits) →
      searchLoop st n total fuel fetch acc = some acc2 →
      ∀ h ∈ acc2, h ∈ st.hits := by
  intro fuel
  induction fuel with
  | zero => intro fetch acc acc2 _ heq; exact absurd heq (by simp [searchLoop])
  | succ fuel ih =>
    intro fetch acc acc2 hacc heq
    rw [searchLoop] at heq
    by_cases hres : st.hits.take fetch = []
    · simp only [hres, if_pos] at heq
      simp only [Option.some.injEq] at heq
      exact heq ▸ hacc
    · simp only [hres, if_neg, if_false] at heq
      have hext : ∀ h ∈ acc ++ st.hits.take fetch, h ∈ st.hits := by
        intro h hh
        rcases List.mem_append.mp hh with hh | hh
        · exact hacc h hh
        · exact List.take_subset _ _ hh
      by_cases hstop : n ≤ (dedupAll (acc ++ st.hits.take fetch)).length ∨ total ≤ fetch
      · simp only [hstop, if_pos, Option.some.injEq] at heq
        exact heq ▸ hext
      · simp only [hstop, if_neg, if_false] at heq
        exact ih _ _ _ hext heq

/-- `searchAccum` is the `some` value of the loop (the fuel suffices). -/
theorem searchAccum_eq (st : VStore) (n : Nat) :
    searchLoop st n st.hits.length (st.hits.length + 2)
      (min (n * 2) st.hits.length) [] = some (searchAccum st n) := by
  have h := searchLoop_isSome st n st.hits.length (st.hits.length + 2)
    (min (n * 2) st.hits.length) [] (Nat.min_le_right _ _) (by omega)
  rw [searchAccum]
  obtain ⟨acc, hacc⟩ := Option.isSome_iff_exists.mp h
  rw [hacc]
  rfl

theorem searchAccum_mem (st : VStore) (n : Nat) :
    ∀ h ∈ searchAccum st n, h ∈ st.hits :=
  searchLoop_mem st n st.hits.length _ _ [] _ (by simp) (searchAccum_eq st n)

theorem lookup_none_fst {k : String} : ∀ {m : List (String × Hit)},
    List.lookup k m = none → ∀ e ∈ m, e.1 ≠ k := by
  intro m
  induction m with
  | nil => intro _ e he; simp at he
  | cons a es ih =>
    intro hl e he
    rw [List.lookup] at hl
    by_cases hk : k = a.1
    · have hbeq : (k == a.1) = true := by simpa using hk
      rw [hbeq] at hl
      simp at hl
    · have hbeq : (k == a.1) = false := by simpa using hk
      rw [hbeq] at hl
      simp only [] at hl
      rcases List.mem_cons.mp he with he | he
      · intro h2
        rw [he] at h2
        exact hk h2.symm
      · exact ih hl e he

theorem lookup_some_mem {k : String} {v : Hit} : ∀ {m : List (String × Hit)},
    List.lookup k m = some v → (k, v) ∈ m := by
  intro m
  induction m with
  | nil => intro hl; simp [List.lookup] at hl
  | cons a es ih =>
    intro hl
    rw [List.lookup] at hl
    by_cases hk : k = a.1
    · have hbeq : (k == a.1) = true := by simpa using hk
      rw [hbeq] at hl
      simp only [Option.some.injEq] at hl
      have : (k, v) = a := by
        rw [hk, ← hl]
      rw [this]
      exact List.mem_cons_self _ _
    · have hbeq : (k == a.1) = false := by simpa using hk
      rw [hbeq] at hl
      simp only [] at hl
      exact List.mem_cons_of_mem _ (ih hl)

theorem lookup_isSome_of_mem {k : String} : ∀ {m : List (String × Hit)}
    {e : String × Hit}, e ∈ m → e.1 = k → (List.lookup k m).isSome := by
  intro m
  induction m with
  | nil => intro e he; simp at he
  | cons a es ih =>
    intro e he hk
    rw [List.lookup]
    by_cases hka : k = a.1
    · have hbeq : (k == a.1) = true := by simpa using hka
      rw [hbeq]
      rfl
    · have hbeq : (k == a.1) = false := by simpa using hka
      rw [hbeq]
      rcases List.mem_cons.mp he with he | he
      · exfalso
        rw [he] at hk
        exact hka hk.symm
      · exact ih he hk

theorem nodup_keys_eq {m : List (String × Hit)} {k : String} {v : Hit}
    (hn : (m.map Prod.fst).Nodup) (hv : (k, v) ∈ m) :
    ∀ e ∈ m, e.1 = k → e = (k, v) := by
  induction m with
  | nil => intro e he; simp at he
  | cons a es ih =>
    intro e he hk
    rw [List.map_cons] at hn
    have hn2 := List.nodup_cons.mp hn
    rcases List.mem_cons.mp hv with hv1 | hv1
    · rcases List.mem_cons.mp he with he1 | he1
      · rw [he1, hv1]
      · exfalso
        have hk2 : a.1 = k := by rw [← hv1]
        refine hn2.1 ?_
        rw [hk2]
        exact hk ▸ List.mem_map_of_mem Prod.fst he1
    · rcases List.mem_cons.mp he with he1 | he1
      · exfalso
        have hak : a.1 = k := by rw [← he1]; exact hk
        refine hn2.1 ?_
        rw [hak]
        have hm : (k, v).1 ∈ List.map Prod.fst es :=
          List.mem_map_of_mem Prod.fst hv1
        simpa using hm
      · exact ih hn2.2 hv1 e he1 hk

/-- Invariant of the dedup-dict fold: keys are distinct, every entry is the
minimum-distance hit for its key among the processed hits, and every processed
hit has an entry for its key. -/
def DedupInv (processed : List Hit) (m : List (String × Hit)) : Prop :=
  (m.map Prod.fst).Nodup ∧
  (∀ e ∈ m, e.2 ∈ processed ∧ hitKey e.2 = e.1 ∧
    ∀ q ∈ processed, hitKey q = e.1 → e.2.distance ≤ q.distance) ∧
  (∀ q ∈ processed, ∃ e ∈ m, e.1 = hitKey q)

theorem dedupStep_none {m : List (String × Hit)} {x : Hit}
    (hlook : List.lookup (hitKey x) m = none) :
    dedupStep m x = m ++ [(hitKey x, x)] := by
  rw [dedupStep, hlook]

theorem dedupStep_some_lt {m : List (String × Hit)} {x old : Hit}
    (hlook : List.lookup (hitKey x) m = some old)
    (hlt : x.distance < old.distance) :
    dedupStep m x = m.map (fun e => if e.1 = hitKey x then (hitKey x, x) else e) := by
  rw [dedupStep, hlook]
  simp only [if_pos hlt]

theorem dedupStep_some_ge {m : List (String × Hit)} {x old : Hit}
    (hlook : List.lookup (hitKey x) m = some old)
    (hge : ¬ x.distance < old.distance) :
    dedupStep m x = m := by
  rw [dedupStep, hlook]
  simp only [if_neg hge]

theorem dedupStep_inv {processed : List Hit} {m : List (String × Hit)}
    (x : Hit) (hinv : DedupInv processed m) :
    DedupInv (processed ++ [x]) (dedupStep m x) := by
  obtain ⟨hkeys, hent, hcov⟩ := hinv
  cases hlook : List.lookup (hitKey x) m with
  | none =>
    rw [dedupStep_none hlook]
    refine ⟨?_, ?_, ?_⟩
    · rw [List.map_append, List.nodup_append]
      refine ⟨hkeys, by simp, ?_⟩
      intro a ha hb
      simp only [List.map_cons, List.map_nil, List.mem_cons,
        List.not_mem_nil, or_false] at hb
      obtain ⟨e, he, hfst⟩ := List.mem_map.mp ha
      exact absurd (hfst.trans hb) (lookup_none_fst hlook e he)
    · intro e he
      rcases List.mem_append.mp he with he | he
      · obtain ⟨h1, h2, h3⟩ := hent e he
        refine ⟨List.mem_append_left _ h1, h2, ?_⟩
        intro q hq hkq
        rcases List.mem_append.mp hq with hq | hq
        · exact h3 q hq hkq
        · have hqx : q = x := List.mem_singleton.mp hq
          exfalso
          have hs := lookup_isSome_of_mem he hkq.symm
          rw [hqx] at hs
          rw [hlook] at hs
          simp at hs
      · have hex : e = (hitKey x, x) := List.mem_singleton.mp he
        rw [hex]
        refine ⟨List.mem_append_right _ (by simp), rfl, ?_⟩
        intro q hq hkq
        rcases List.mem_append.mp hq with hq | hq
        · exfalso
          obtain ⟨e2, he2, hke2⟩ := hcov q hq
          have hs := lookup_isSome_of_mem he2 (hke2.trans hkq)
          rw [hlook] at hs
          simp at hs
        · have hqx : q = x := List.mem_singleton.mp hq
          rw [hqx]
    · intro q hq
      rcases List.mem_append.mp hq with hq | hq
      · obtain ⟨e, he, hke⟩ := hcov q hq
        exact ⟨e, List.mem_append_left _ he, hke⟩
      · have hqx : q = x := List.mem_singleton.mp hq
        rw [hqx]
        exact ⟨(hitKey x, x), List.mem_append_right _ (by simp), rfl⟩
  | some old =>
    have hmemold : (hitKey x, old) ∈ m := lookup_some_mem hlook
    by_cases hlt : x.distance < old.distance
    · rw [dedupStep_some_lt hlook hlt]
      have hfst : ∀ e : String × Hit,
          (if e.1 = hitKey x then (hitKey x, x) else e).1 = e.1 := by
        intro e
        by_cases he : e.1 = hitKey x
        · rw [if_pos he, he]
        · rw [if_neg he]
      refine ⟨?_, ?_, ?_⟩
      · rw [List.map_map]
        have hcomp : (Prod.fst ∘ fun e : String × Hit =>
            if e.1 = hitKey x then (hitKey x, x) else e) = Prod.fst := by
          funext e
          exact hfst e
        rw [hcomp]
        exact hkeys
      · intro e2 he2
        obtain ⟨e, he, hfe⟩ := List.mem_map.mp he2
        by_cases hek : e.1 = hitKey x
        · rw [if_pos hek] at hfe
          have heold : e = (hitKey x, old) := nodup_keys_eq hkeys hmemold e he hek
          rw [← hfe]
          refine ⟨List.mem_append_right _ (by simp), rfl, ?_⟩
          intro q hq hkq
          simp only [] at hkq
          rcases List.mem_append.mp hq with hq | hq
          · have hmin := (hent e he).2.2 q hq (by rw [hkq, hek])
            have hod : e.2.distance = old.distance := by rw [heold]
            rw [hod] at hmin
            exact le_of_lt (lt_of_lt_of_le hlt hmin)
          · have hqx : q = x := List.mem_singleton.mp hq
            rw [hqx]
        · rw [if_neg hek] at hfe
          obtain ⟨h1, h2, h3⟩ := hent e he
          rw [← hfe]
          refine ⟨List.mem_append_left _ h1, h2, ?_⟩
          intro q hq hkq
          rcases List.mem_append.mp hq with hq | hq
          · exact h3 q hq hkq
          · have hqx : q = x := List.mem_singleton.mp hq
            rw [hqx] at hkq
            exact absurd hkq.symm hek
      · intro q hq
        rcases List.mem_append.mp hq with hq | hq
        · obtain ⟨e, he, hke⟩ := hcov q hq
          refine ⟨(if e.1 = hitKey x then (hitKey x, x) else e),
            List.mem_map_of_mem _ he, ?_⟩
          rw [hfst e, hke]
        · have hqx : q = x := List.mem_singleton.mp hq
          rw [hqx]
          refine ⟨(hitKey x, x), ?_, rfl⟩
          have hm2 := List.mem_map_of_mem
            (fun e : String × Hit => if e.1 = hitKey x then (hitKey x, x) else e)
            hmemold
          simpa using hm2
    · rw [dedupStep_some_ge hlook hlt]
      refine ⟨hkeys, ?_, ?_⟩
      · intro e he
        obtain ⟨h1, h2, h3⟩ := hent e he
        refine ⟨List.mem_append_left _ h1, h2, ?_⟩
        intro q hq hkq
        rcases List.mem_append.mp hq with hq | hq
        · exact h3 q hq hkq
        · have hqx : q = x := List.mem_singleton.mp hq
          rw [hqx] at hkq ⊢
          have he2 : e = (hitKey x, old) := nodup_keys_eq hkeys hmemold e he hkq.symm
          have hdd : e.2.distance = old.distance := by rw [he2]
          rw [hdd]
          exact le_of_not_lt hlt
      · intro q hq
        rcases List.mem_append.mp hq with hq | hq
        · exact hcov q hq
        · have hqx : q = x := List.mem_singleton.mp hq
          rw [hqx]
          exact ⟨(hitKey x, old), hmemold, rfl⟩

theorem dedupAll_inv : ∀ (l processed : List Hit) (m : List (String × Hit)),
    DedupInv processed m → DedupInv (processed ++ l) (l.foldl dedupStep m)
  | [], processed, m, h => by simpa using h
  | x :: r, processed, m, h => by
    rw [List.foldl_cons]
    have h2 := dedupAll_inv r (processed ++ [x]) (dedupStep m x) (dedupStep_inv x h)
    simpa [List.append_assoc] using h2

/-- The dedup dict over a hit list: distinct keys, entries are the
minimum-distance representatives, all keys covered. -/
theorem dedupAll_spec (l : List Hit) : DedupInv l (dedupAll l) := by
  have h := dedupAll_inv l [] [] ⟨by simp, by simp, by simp⟩
  simpa using h

theorem dedupAll_keys_eq (l : List Hit) :
    (dedupAll l).map (fun e => hitKey e.2) = (dedupAll l).map Prod.fst := by
  refine List.map_congr_left ?_
  intro e he
  exact ((dedupAll_spec l).2.1 e he).2.1

theorem rankedHits_subset (st : VStore) (n : Nat) :
    ∀ h ∈ rankedHits st n, ∃ e ∈ dedupAll (searchAccum st n), e.2 = h := by
  intro h hh
  have h1 : h ∈ List.mergeSort ((dedupAll (searchAccum st n)).map Prod.snd)
      (fun a b => decide (a.distance ≤ b.distance)) :=
    List.take_subset _ _ hh
  have h2 : h ∈ (dedupAll (searchAccum st n)).map Prod.snd :=
    (List.mergeSort_perm _ _).mem_iff.mp h1
  obtain ⟨e, he, hfe⟩ := List.mem_map.mp h2
  exact ⟨e, he, hfe⟩

theorem rankedHits_sorted (st : VStore) (n : Nat) :
    (rankedHits st n).Pairwise (fun a b => a.distance ≤ b.distance) := by
  have hs := @List.sorted_mergeSort Hit
    (fun a b : Hit => decide (a.distance ≤ b.distance))
    (fun a b c hab hbc => by
      simp only [decide_eq_true_eq] at hab hbc ⊢
      exact le_trans hab hbc)
    (fun a b => by
      simp only [Bool.or_eq_true, decide_eq_true_eq]
      exact le_total a.distance b.distance)
    ((dedupAll (searchAccum st n)).map Prod.snd)
  have hs2 := hs.sublist (List.take_sublist n _)
  exact hs2.imp (fun hab => by simpa using hab)

theorem rankedHits_length (st : VStore) (n : Nat) :
    (rankedHits st n).length ≤ n := by
  rw [rankedHits]
  exact List.length_take_le _ _

theorem rankedHits_keys_nodup (st : VStore) (n : Nat) :
    ((rankedHits st n).map hitKey).Nodup := by
  have hkeys : ((dedupAll (searchAccum st n)).map Prod.fst).Nodup :=
    (dedupAll_spec _).1
  have hvals : ((dedupAll (searchAccum st n)).map Prod.snd).map hitKey =
      (dedupAll (searchAccum st n)).map Prod.fst := by
    rw [List.map_map]
    exact dedupAll_keys_eq _
  have hperm : List.Perm
      ((List.mergeSort ((dedupAll (searchAccum st n)).map Prod.snd)
        (fun a b => decide (a.distance ≤ b.distance))).map hitKey)
      (((dedupAll (searchAccum st n)).map Prod.snd).map hitKey) :=
    (List.mergeSort_perm _ _).map hitKey
  have hnodup : ((List.mergeSort ((dedupAll (searchAccum st n)).map Prod.snd)
      (fun a b => decide (a.distance ≤ b.distance))).map hitKey).Nodup := by
    refine hperm.nodup_iff.mpr ?_
    rw [hvals]
    exact hkeys
  rw [rankedHits, List.map_take]
  exact List.Nodup.sublist (List.take_sublist _ _) hnodup

theorem pairwise_filterMap_of {α β : Type} {R : α → α → Prop} {S : β → β → Prop}
    (f : α → Option β)
    (hf : ∀ a b a2 b2, f a = some a2 → f b = some b2 → R a b → S a2 b2) :
    ∀ {l : List α}, l.Pairwise R → (l.filterMap f).Pairwise S := by
  intro l
  induction l with
  | nil => intro _; simp
  | cons a r ih =>
    intro hp
    obtain ⟨ha, hr⟩ := List.pairwise_cons.mp hp
    rw [List.filterMap_cons]
    cases hfa : f a with
    | none => exact ih hr
    | some a2 =>
      refine List.pairwise_cons.mpr ⟨?_, ih hr⟩
      intro b2 hb2
      obtain ⟨b, hb, hfb⟩ := List.mem_filterMap.mp hb2
      exact hf a b a2 b2 hfa hfb (ha b hb)

theorem mkResult_fields {st : VStore} {h : Hit} {r : SearchResult}
    (heq : mkResult st h = some r) :
    r.score = 1 - h.distance ∧ r.distance = h.distance ∧
    r.email.recipients = [] ∧ r.email.attachments = [] ∧
    r.email.message_id = hitKey h := by
  rw [mkResult, Option.map_eq_some'] at heq
  obtain ⟨doc, _, hre⟩ := heq
  rw [← hre]
  exact ⟨rfl, rfl, rfl, rfl, rfl⟩

theorem search_mem {st : VStore} {emb : Option (List ℚ)} {n : Nat}
    {r : SearchResult} (hr : r ∈ search st emb n) :
    ∃ h ∈ rankedHits st n, mkResult st h = some r := by
  cases emb with
  | none => simp [search] at hr
  | some e =>
    rw [search] at hr
    by_cases hacc : searchAccum st n = []
    · rw [if_pos hacc] at hr
      simp at hr
    · rw [if_neg hacc] at hr
      obtain ⟨h, hh, hfh⟩ := List.mem_filterMap.mp hr
      exact ⟨h, hh, hfh⟩

theorem search_sublist_results (st : VStore) (emb : Option (List ℚ)) (n : Nat) :
    (search st emb n).length ≤ (rankedHits st n).length := by
  cases emb with
  | none => simp [search]
  | some e =>
    rw [search]
    by_cases hacc : searchAccum st n = []
    · rw [if_pos hacc]; simp
    · rw [if_neg hacc]
      exact List.length_filterMap_le _ _

theorem foldl_set_length (resps : Nat → EmbedResp) :
    ∀ (order : List Nat) (slots : List (Option (List ℚ))),
    (order.foldl (fun s j => s.set j (generateEmbedding (resps j))) slots).length
      = slots.length
  | [], _ => rfl
  | i :: r, slots => by
    rw [List.foldl_cons, foldl_set_length resps r, List.length_set]

theorem foldl_set_not_mem (resps : Nat → EmbedResp) :
    ∀ (order : List Nat) (slots : List (Option (List ℚ))) (i : Nat), i ∉ order →
    (order.foldl (fun s j => s.set j (generateEmbedding (resps j))) slots)[i]?
      = slots[i]?
  | [], _, _, _ => rfl
  | j :: r, slots, i, hni => by
    rw [List.foldl_cons,
      foldl_set_not_mem resps r _ i (fun hm => hni (List.mem_cons_of_mem _ hm)),
      List.getElem?_set_ne (fun hij => hni (by rw [hij]; exact List.mem_cons_self _ _))]

theorem foldl_set_mem (resps : Nat → EmbedResp) :
    ∀ (order : List Nat) (slots : List (Option (List ℚ))) (i : Nat),
    i ∈ order → order.Nodup → i < slots.length →
    (order.foldl (fun s j => s.set j (generateEmbedding (resps j))) slots)[i]?
      = some (generateEmbedding (resps i))
  | [], _, i, hmem, _, _ => absurd hmem (by simp)
  | j :: r, slots, i, hmem, hnd, hlen => by
    obtain ⟨hjr, hndr⟩ := List.nodup_cons.mp hnd
    rw [List.foldl_cons]
    by_cases hij : i = j
    · subst hij
      rw [foldl_set_not_mem resps r _ i hjr,
        List.getElem?_set_self hlen]
    · rcases List.mem_cons.mp hmem with h | h
      · exact absurd h hij
      · rw [foldl_set_mem resps r _ i h hndr (by rw [List.length_set]; exact hlen)]

/-- Slot contents of `generate_embeddings_batch`, for any completion order
that services every index exactly once. -/
theorem runBatch_slots (resps : Nat → EmbedResp) (n : Nat) (order : List Nat)
    (hperm : List.Perm order (List.range n)) :
    (runBatch resps n order).length = n ∧
    ∀ i, i < n → (runBatch resps n order)[i]? = some (generateEmbedding (resps i)) := by
  have hnd : order.Nodup := hperm.symm.nodup (List.nodup_range n)
  constructor
  · rw [runBatch, foldl_set_length, List.length_replicate]
  · intro i hi
    have hmem : i ∈ order := hperm.mem_iff.mpr (List.mem_range.mpr hi)
    rw [runBatch]
    exact foldl_set_mem resps order _ i hmem hnd
      (by rw [List.length_replicate]; exact hi)

theorem search_min_distance {st : VStore} {emb : Option (List ℚ)} {n : Nat}
    {r : SearchResult} (hr : r ∈ search st emb n) :
    ∃ h ∈ searchAccum st n, hitKey h = r.email.message_id ∧
      r.distance = h.distance ∧
      ∀ h2 ∈ searchAccum st n, hitKey h2 = hitKey h → h.distance ≤ h2.distance := by
  obtain ⟨h, hh, hmk⟩ := search_mem hr
  obtain ⟨e, he, hfe⟩ := rankedHits_subset st n h hh
  obtain ⟨hmem, hkey, hmin⟩ := (dedupAll_spec (searchAccum st n)).2.1 e he
  obtain ⟨_, hdist, _, _, hmid⟩ := mkResult_fields hmk
  refine ⟨e.2, hmem, ?_, ?_, ?_⟩
  · rw [hmid, hfe]
  · rw [hdist, hfe]
  · intro h2 hh2 hk2
    exact hmin h2 hh2 (by rw [hk2, hkey])

theorem search_sorted (st : VStore) (emb : Option (List ℚ)) (n : Nat) :
    (search st emb n).Pairwise (fun a b => a.distance ≤ b.distance) := by
  cases emb with
  | none => simp [search]
  | some e =>
    rw [search]
    by_cases hacc : searchAccum st n = []
    · rw [if_pos hacc]; simp
    · rw [if_neg hacc]
      refine pairwise_filterMap_of _ ?_ (rankedHits_sorted st n)
      intro a b a2 b2 ha hb hab
      obtain ⟨_, hda, _, _, _⟩ := mkResult_fields ha
      obtain ⟨_, hdb, _, _, _⟩ := mkResult_fields hb
      rw [hda, hdb]
      exact hab

theorem search_keys_distinct (st : VStore) (emb : Option (List ℚ)) (n : Nat) :
    (search st emb n).Pairwise
      (fun a b => a.email.message_id ≠ b.email.message_id) := by
  cases emb with
  | none => simp [search]
  | some e =>
    rw [search]
    by_cases hacc : searchAccum st n = []
    · rw [if_pos hacc]; simp
    · rw [if_neg hacc]
      have hkeys := rankedHits_keys_nodup st n
      rw [List.Nodup, List.pairwise_map] at hkeys
      refine pairwise_filterMap_of _ ?_ hkeys
      intro a b a2 b2 ha hb hab
      obtain ⟨_, _, _, _, hma⟩ := mkResult_fields ha
      obtain ⟨_, _, _, _, hmb⟩ := mkResult_fields hb
      rw [hma, hmb]
      exact hab

theorem search_length_le (st : VStore) (emb : Option (List ℚ)) (n : Nat) :
    (search st emb n).length ≤ n :=
  le_trans (search_sublist_results st emb n) (rankedHits_length st n)

theorem search_length_le_total (st : VStore) (emb : Option (List ℚ)) (n : Nat) :
    (search st emb n).length ≤ st.hits.length := by
  refine le_trans (search_sublist_results st emb n) ?_
  have h1 : (rankedHits st n).length ≤
      ((dedupAll (searchAccum st n)).map Prod.snd).length := by
    rw [rankedHits]
    refine le_trans (List.take_sublist _ _).length_le ?_
    rw [(List.mergeSort_perm _ _).length_eq]
  refine le_trans h1 ?_
  rw [List.length_map, ← List.length_map (dedupAll (searchAccum st n)) Prod.fst]
  have hnodup : ((dedupAll (searchAccum st n)).map Prod.fst).Nodup :=
    (dedupAll_spec _).1
  have hsub : ∀ k ∈ (dedupAll (searchAccum st n)).map Prod.fst,
      k ∈ st.hits.map hitKey := by
    intro k hk
    obtain ⟨e, he, hfe⟩ := List.mem_map.mp hk
    obtain ⟨hmem, hkey, _⟩ := (dedupAll_spec _).2.1 e he
    refine List.mem_map.mpr ⟨e.2, searchAccum_mem st n e.2 hmem, ?_⟩
    rw [hkey, hfe]
  have hcard : ((dedupAll (searchAccum st n)).map Prod.fst).length ≤
      (st.hits.map hitKey).length := by
    rw [← List.toFinset_card_of_nodup hnodup]
    refine le_trans (Finset.card_le_card ?_) (List.toFinset_card_le _)
    intro k hk
    rw [List.mem_toFinset] at hk ⊢
    exact hsub k hk
  simp only [List.length_map] at hcard
  simpa [List.length_map] using hcard

/-! ### Concrete instances used by the claims -/

def mkHit (id mid : String) (d : ℚ) : Hit :=
  ⟨id, d, ⟨some mid, "t", [], "s", "d", [], none⟩⟩

/-- An index holding three duplicate vector entries for message A (at
distances 1, 3, 5) and one entry each for B, C, D, E, F. -/
def exStore : VStore :=
  ⟨[mkHit "a1" "A" 1, mkHit "b" "B" 2, mkHit "a2" "A" 3,
    mkHit "c" "C" 4, mkHit "a3" "A" 5, mkHit "d" "D" 6,
    mkHit "e" "E" 7, mkHit "f" "F" 8],
   fun _ => some ['x']⟩

def tinyStore : VStore := ⟨[mkHit "a1" "A" 1], fun _ => some ['x']⟩

def tinyResult : SearchResult :=
  ⟨⟨"a1", "A", "t", [], "s", [], "d", ['x'], [], [], []⟩, 0, 1⟩

theorem ex_search_eval :
    (search exStore (some [1]) 5).map (fun r => (r.email.message_id, r.distance)) =
      [("A", 1), ("B", 2), ("C", 4), ("D", 6), ("E", 7)] := by
  simp +decide [search, searchAccum, searchLoop, dedupAll, dedupStep, hitKey,
    rankedHits, mkResult, exStore, mkHit, List.lookup, List.mergeSort, List.merge,
    List.filterMap_cons, List.take_succ_cons]

theorem tiny_search_eval : search tinyStore (some [1]) 1 = [tinyResult] := by
  simp +decide [search, searchAccum, searchLoop, dedupAll, dedupStep, hitKey,
    rankedHits, mkResult, tinyStore, tinyResult, mkHit, List.lookup,
    List.mergeSort, List.merge, List.filterMap_cons, List.take_succ_cons]

/-! ### The claims -/

/-- Claim C1: for every store, query embedding and `n_results`, search returns
at most `n_results` results, sorted ascending by distance, no two sharing a
DedupKey (`metadata.message_id`, else the hit id), and each surviving key is
represented at the minimum distance among the accumulated hits with that key;
concretely, `n_results = 5` against an index with 3 duplicate entries for A
and one each for B, C, D, E, F returns exactly 5 results, A once at its
minimum distance. -/
theorem claim_C1_search_dedup :
    (∀ (st : VStore) (emb : Option (List ℚ)) (n : Nat),
      (search st emb n).length ≤ n ∧
      (search st emb n).Pairwise (fun a b => a.distance ≤ b.distance) ∧
      (search st emb n).Pairwise
        (fun a b => a.email.message_id ≠ b.email.message_id) ∧
      ∀ r ∈ search st emb n, ∃ h ∈ searchAccum st n,
        hitKey h = r.email.message_id ∧ r.distance = h.distance ∧
        ∀ h2 ∈ searchAccum st n, hitKey h2 = hitKey h →
          h.distance ≤ h2.distance) ∧
    (search exStore (some [1]) 5).map (fun r => (r.email.message_id, r.distance)) =
      [("A", 1), ("B", 2), ("C", 4), ("D", 6), ("E", 7)] :=
  ⟨fun st emb n => ⟨search_length_le st emb n, search_sorted st emb n,
    search_keys_distinct st emb n, fun _ hr => search_min_distance hr⟩,
   ex_search_eval⟩

theorem claim_C1_search_dedup_witness :
    tinyResult ∈ search tinyStore (some [1]) 1 ∧
    ∃ h ∈ searchAccum tinyStore 1, hitKey h = tinyResult.email.message_id ∧
      tinyResult.distance = h.distance ∧
      ∀ h2 ∈ searchAccum tinyStore 1, hitKey h2 = hitKey h →
        h.distance ≤ h2.distance := by
  have hmem : tinyResult ∈ search tinyStore (some [1]) 1 := by
    rw [tiny_search_eval]
    exact List.mem_singleton.mpr rfl
  exact ⟨hmem,
    (claim_C1_search_dedup.1 tinyStore (some [1]) 1).2.2.2 tinyResult hmem⟩

/-- Claim C2: with `n_results` above the store's record count the adaptive
loop still breaks within the standard fuel (`total_count + 2` iterations
always suffice, since `fetch_count` strictly grows to `total_count`), and
search returns at most `total_count` deduplicated results. -/
theorem claim_C2_adaptive_terminates (st : VStore) (emb : Option (List ℚ))
    (n : Nat) (hn : st.hits.length < n) :
    (searchLoop st n st.hits.length (st.hits.length + 2)
      (min (n * 2) st.hits.length) []).isSome ∧
    (search st emb n).length ≤ st.hits.length :=
  ⟨searchLoop_isSome st n _ _ _ [] (Nat.min_le_right _ _) (by omega),
   search_length_le_total st emb n⟩

theorem claim_C2_adaptive_terminates_witness :
    tinyStore.hits.length < 5 ∧
    ((searchLoop tinyStore 5 tinyStore.hits.length (tinyStore.hits.length + 2)
      (min (5 * 2) tinyStore.hits.length) []).isSome ∧
     (search tinyStore (some [1]) 5).length ≤ tinyStore.hits.length) :=
  ⟨by decide, claim_C2_adaptive_terminates tinyStore (some [1]) 5 (by decide)⟩

/-- Claim C8: every returned result's score equals one minus its distance. -/
theorem claim_C8_score (st : VStore) (emb : Option (List ℚ)) (n : Nat)
    (r : SearchResult) (hr : r ∈ search st emb n) : r.score = 1 - r.distance := by
  obtain ⟨h, _, hmk⟩ := search_mem hr
  obtain ⟨hs, hd, _, _, _⟩ := mkResult_fields hmk
  rw [hs, hd]

theorem claim_C8_score_witness :
    tinyResult ∈ search tinyStore (some [1]) 1 ∧
    tinyResult.score = 1 - tinyResult.distance := by
  have hmem : tinyResult ∈ search tinyStore (some [1]) 1 := by
    rw [tiny_search_eval]
    exact List.mem_singleton.mpr rfl
  exact ⟨hmem, claim_C8_score tinyStore (some [1]) 1 tinyResult hmem⟩

/-- Claim C10: every returned result's materialized email has an empty
recipients sequence and an empty attachments sequence. -/
theorem claim_C10_materialized_empty (st : VStore) (emb : Option (List ℚ))
    (n : Nat) (r : SearchResult) (hr : r ∈ search st emb n) :
    r.email.recipients = [] ∧ r.email.attachments = [] := by
  obtain ⟨h, _, hmk⟩ := search_mem hr
  obtain ⟨_, _, hrec, hatt, _⟩ := mkResult_fields hmk
  exact ⟨hrec, hatt⟩

theorem claim_C10_materialized_empty_witness :
    tinyResult ∈ search tinyStore (some [1]) 1 ∧
    tinyResult.email.recipients = [] ∧ tinyResult.email.attachments = [] := by
  have hmem : tinyResult ∈ search tinyStore (some [1]) 1 := by
    rw [tiny_search_eval]
    exact List.mem_singleton.mpr rfl
  exact ⟨hmem, claim_C10_materialized_empty tinyStore (some [1]) 1 tinyResult hmem⟩

/-- Claim C6: for any completion order that services each of the N submitted
indices exactly once, the batch returns N slots in input order (slot i holds
text i's embedding); when exactly one backend call fails, exactly that slot
is `none` and all others are populated. -/
theorem claim_C6_batch_slots (resps : Nat → EmbedResp) (n : Nat)
    (order : List Nat) (hperm : List.Perm order (List.range n)) :
    (runBatch resps n order).length = n ∧
    (∀ i, i < n →
      (runBatch resps n order)[i]? = some (generateEmbedding (resps i))) ∧
    ∀ j, j < n → generateEmbedding (resps j) = none →
      (∀ i, i < n → i ≠ j → (generateEmbedding (resps i)).isSome) →
      (runBatch resps n order)[j]? = some none ∧
      ∀ i, i < n → i ≠ j → ∃ v, (runBatch resps n order)[i]? = some (some v) := by
  obtain ⟨hlen, hslot⟩ := runBatch_slots resps n order hperm
  refine ⟨hlen, hslot, ?_⟩
  intro j hj hfail hothers
  refine ⟨by rw [hslot j hj, hfail], ?_⟩
  intro i hi hij
  obtain ⟨v, hv⟩ := Option.isSome_iff_exists.mp (hothers i hi hij)
  exact ⟨v, by rw [hslot i hi, hv]⟩

/-- Backend responses where exactly the call for text 1 raises. -/
def exResps : Nat → EmbedResp :=
  fun i => if i = 1 then none else some (some [[1]])

theorem claim_C6_batch_slots_witness :
    List.Perm [2, 0, 1] (List.range 3) ∧
    ((runBatch exResps 3 [2, 0, 1]).length = 3 ∧
     (runBatch exResps 3 [2, 0, 1])[1]? = some none ∧
     ∃ v, (runBatch exResps 3 [2, 0, 1])[0]? = some (some v)) := by
  have hperm : List.Perm [2, 0, 1] (List.range 3) := by decide
  obtain ⟨hlen, _, hone⟩ := claim_C6_batch_slots exResps 3 [2, 0, 1] hperm
  obtain ⟨hfailslot, hothers⟩ := hone 1 (by decide) rfl (by decide)
  exact ⟨hperm, hlen, hfailslot, hothers 0 (by decide) (by decide)⟩

/-- Claim C9: every successfully parsed mbox message yields a record with
`id = message_id = thread_id` (the Message-ID header when present and
non-empty, else the synthesized `mbox-<index>`) and an empty labels list. -/
theorem claim_C9_mbox_identity (env : ParseEnv) (reg : Registry) (msg : PyMsg)
    (index : Nat) (now : String) (e : Email)
    (he : parseEmail env reg msg index now = some e) :
    e.id = e.message_id ∧ e.thread_id = e.message_id ∧
    e.message_id = (match msg.messageId with
      | some s => if s = "" then synthId index else s
      | none => synthId index) ∧
    e.labels = [] := by
  rw [parseEmail] at he
  simp only [Option.some.injEq] at he
  rw [← he]
  exact ⟨rfl, rfl, rfl, rfl⟩

def exEnv : ParseEnv :=
  ⟨fun _ => none, fun _ => "", fun _ => [], fun v => [Fragment.str v.toList]⟩

def exMsg : PyMsg := ⟨none, none, none, none, none, none, Msg.single none none⟩

theorem claim_C9_mbox_identity_witness :
    ∃ e, parseEmail exEnv [] exMsg 3 "T" = some e ∧
      (e.id = e.message_id ∧ e.thread_id = e.message_id ∧
       e.message_id = (match exMsg.messageId with
         | some s => if s = "" then synthId 3 else s
         | none => synthId 3) ∧
       e.labels = []) := by
  obtain ⟨e, he⟩ : ∃ e, parseEmail exEnv [] exMsg 3 "T" = some e := ⟨_, rfl⟩
  exact ⟨e, he, claim_C9_mbox_identity exEnv [] exMsg 3 "T" e he⟩

/-- An HTML leaf part carrying `<b>H</b>` and a plain-text leaf carrying `P`. -/
def exHtmlLeaf : Leaf := ⟨none, "text/html", none, some [60, 98, 62, 72, 60, 47, 98, 62]⟩
def exPlainLeaf : Leaf := ⟨none, "text/plain", none, some [80]⟩

/-- Claim C3 counterexample: in a multipart message whose HTML part precedes
its plain-text part, the stripped HTML enters the body even though a plain
part exists: the body is "H\nP", not the plain-only "P". -/
theorem claim_C3_plain_priority_cex :
    EligPlain exPlainLeaf ∧ EligHtml exHtmlLeaf ∧
    getBody [] (Msg.multi [exHtmlLeaf, exPlainLeaf]) = ['H', '\n', 'P'] ∧
    getBody [] (Msg.multi [exHtmlLeaf, exPlainLeaf]) ≠
      List.intercalate ['\n'] (plainTexts [] [exHtmlLeaf, exPlainLeaf]) := by
  refine ⟨by decide, by decide, ?_, ?_⟩ <;>
    simp +decide [getBody, bodyStep, maintypeOf, pyDecode, lookupCodec,
      List.lookup, utf8Ignore, utf8Decode, stripHtml, removeBlocks, stripTags,
      splitAtGt, findSub, collapseWs, trimWs, isWs, scrO, scrC, styO, styC,
      exHtmlLeaf, exPlainLeaf, plainTexts, leafText, List.intercalate,
      List.intersperse, List.isPrefixOf, List.filterMap_cons]

/-- Claim C3 (amended, as the counterexample forces): all eligible plain-text
parts enter the body; when no eligible HTML part precedes the first eligible
plain part the body is exactly the newline-joined plain texts, and stripped
HTML enters only when an HTML part comes first — in particular, when no
plain-text part exists the body is the first eligible HTML part tag-stripped. -/
theorem claim_C3_plain_priority_amended :
    (∀ (reg : Registry) (parts : List Leaf), plainFirst false parts = true →
      getBody reg (.multi parts) =
        List.intercalate ['\n'] (plainTexts reg parts)) ∧
    (∀ (reg : Registry) (parts : List Leaf), (∀ p ∈ parts, ¬ EligPlain p) →
      getBody reg (.multi parts) =
        (match parts.find? (fun p => decide (EligHtml p)) with
         | some p => stripHtml (leafText reg p)
         | none => [])) :=
  ⟨getBody_plain_priority, getBody_html_fallback⟩

theorem claim_C3_plain_priority_amended_witness :
    plainFirst false [exPlainLeaf, exHtmlLeaf] = true ∧
    getBody [] (.multi [exPlainLeaf, exHtmlLeaf]) =
      List.intercalate ['\n'] (plainTexts [] [exPlainLeaf, exHtmlLeaf]) := by
  have hpf : plainFirst false [exPlainLeaf, exHtmlLeaf] = true := by decide
  exact ⟨hpf, claim_C3_plain_priority_amended.1 [] _ hpf⟩

/-- Claim C4 counterexample: on an empty archive (zero messages) the scan
raises ValueError at `mmap.mmap` and yields no table at all — in particular
not the empty table the claim asserts. -/
theorem claim_C4_boundaries_cex :
    generateToc [] = Except.error "ValueError: cannot mmap an empty file" ∧
    generateToc [] ≠ Except.ok [] ∧
    ∀ t : List (Nat × Nat), generateToc [] ≠ Except.ok t := by
  refine ⟨rfl, by simp [generateToc], fun t => by simp [generateToc]⟩

/-- Claim C4 (amended, as the counterexample forces): for every non-empty
archive file the scan succeeds and its table has one boundary per separator
match plus one (so N for N properly separated messages), contiguous (each
stop is the next start), starting at offset 0, ending at the file length,
each with start ≤ stop; a file containing zero messages (an empty file) makes
the scan raise ValueError from `mmap.mmap`, so no boundary table — empty or
otherwise — is produced. -/
theorem claim_C4_boundaries_amended :
    (∀ file : List Nat, file ≠ [] →
      generateToc file = Except.ok (tocPairs file) ∧
      (tocPairs file).length = (patMatches file 0).length + 1 ∧
      (tocPairs file).Chain' (fun a b => a.2 = b.1) ∧
      ((tocPairs file).head?).map Prod.fst = some 0 ∧
      ((tocPairs file).getLast?).map Prod.snd = some file.length ∧
      ∀ b ∈ tocPairs file, b.1 ≤ b.2) ∧
    generateToc [] = Except.error "ValueError: cannot mmap an empty file" := by
  refine ⟨?_, rfl⟩
  intro file hne
  obtain ⟨h1, h2, h3, h4, h5⟩ := tocPairs_props file
  exact ⟨by rw [generateToc, if_neg hne], h1, h2, h3, h4, h5⟩

/-- The bytes of "From a\nFrom b": a two-message archive. -/
def exMboxFile : List Nat := [70, 114, 111, 109, 32, 97, 10, 70, 114, 111, 109, 32, 98]

theorem claim_C4_boundaries_amended_witness :
    exMboxFile ≠ [] ∧
    generateToc exMboxFile = Except.ok (tocPairs exMboxFile) ∧
    tocPairs exMboxFile = [(0, 7), (7, 13)] ∧
    (0, 7) ∈ tocPairs exMboxFile ∧
    ((0, 7) : Nat × Nat).1 ≤ ((0, 7) : Nat × Nat).2 := by
  have hne : exMboxFile ≠ [] := by simp [exMboxFile]
  have heq : tocPairs exMboxFile = [(0, 7), (7, 13)] := by
    simp +decide [tocPairs, patMatches, exMboxFile, List.isPrefixOf, mboxPat]
  have hmem : (0, 7) ∈ tocPairs exMboxFile := by
    rw [heq]
    exact List.mem_cons_self _ _
  exact ⟨hne, (claim_C4_boundaries_amended.1 exMboxFile hne).1, heq, hmem,
    (claim_C4_boundaries_amended.1 exMboxFile hne).2.2.2.2.2 (0, 7) hmem⟩

/-- Claim C5: an HTML-derived body contains no `<[^>]+>` span, has its
whitespace collapsed to single spaces with trimmed ends, and the content of
well-formed `<script>`/`<style>` elements is deleted wholesale (the result
equals that of the input with the whole element absent); an HTML-only
multipart body is exactly the first eligible HTML part through
`_strip_html`. -/
theorem claim_C5_strip_html :
    (∀ l : List Char, ¬ TagIn (stripHtml l)) ∧
    (∀ l : List Char, allWsSpace (stripHtml l) = true ∧
      WsSeparated (stripHtml l) ∧ noEndWs (stripHtml l) = true) ∧
    (∀ x m y : List Char, '<' ∉ x → '<' ∉ m →
      stripHtml (x ++ scriptBlock m ++ y) = stripHtml (x ++ y) ∧
      stripHtml (x ++ styleBlock m ++ y) = stripHtml (x ++ y)) ∧
    (∀ (reg : Registry) (parts : List Leaf) (p : Leaf),
      (∀ q ∈ parts, ¬ EligPlain q) →
      parts.find? (fun q => decide (EligHtml q)) = some p →
      getBody reg (.multi parts) = stripHtml (leafText reg p)) := by
  refine ⟨stripHtml_not_tagIn, stripHtml_ws_collapsed, ?_, ?_⟩
  · exact fun x m y hx hm => ⟨stripHtml_removes_script x m y hx hm,
      stripHtml_removes_style x m y hx hm⟩
  · intro reg parts p hnp hfind
    rw [getBody_html_fallback reg parts hnp, hfind]

theorem claim_C5_strip_html_witness :
    ('<' ∉ (['a'] : List Char)) ∧
    stripHtml (['a'] ++ scriptBlock ['e'] ++ ['b']) = stripHtml (['a'] ++ ['b']) :=
  ⟨by decide,
   (claim_C5_strip_html.2.2.1 ['a'] ['e'] ['b'] (by decide) (by decide)).1⟩

/-- Claim C7 counterexample: with an unknown charset the code decodes with
UTF-8 and `errors="ignore"` — the invalid byte 0xFF is dropped, not
substituted by a replacement character as "invalid-byte substitution"
(errors="replace") would produce. -/
theorem claim_C7_charset_cex :
    pyDecode [] "x-bogus" [255, 97] = ['a'] ∧
    utf8Replace [255, 97] = ['\uFFFD', 'a'] ∧
    pyDecode [] "x-bogus" [255, 97] ≠ utf8Replace [255, 97] := by
  refine ⟨?_, ?_, ?_⟩ <;>
    simp +decide [pyDecode, lookupCodec, List.lookup, utf8Ignore, utf8Replace,
      utf8Decode]

/-- Claim C7 (amended, as the counterexample forces): decoding is total and
never raises; an unsupported/unknown charset (LookupError at codec lookup)
falls back to UTF-8 decoding with invalid bytes dropped (errors="ignore",
not substituted), in header fragments and in body payloads alike. -/
theorem claim_C7_charset_amended :
    (∀ (reg : Registry) (cs : String) (bs : List Nat),
      lookupCodec reg cs = none → pyDecode reg cs bs = utf8Ignore bs) ∧
    (∀ (reg : Registry) (pre post : List Fragment) (bs : List Nat)
        (cs : Option String), lookupCodec reg (cs.getD "utf-8") = none →
      decodeHeaderFrags reg (pre ++ Fragment.bytes bs cs :: post) =
        decodeHeaderFrags reg pre ++ utf8Ignore bs ++ decodeHeaderFrags reg post) ∧
    (∀ (reg : Registry) (cs : Option String) (bs : List Nat),
      lookupCodec reg (cs.getD "utf-8") = none →
      getBody reg (.single cs (some bs)) = utf8Ignore bs) := by
  refine ⟨?_, ?_, ?_⟩
  · intro reg cs bs h
    rw [pyDecode, h]
  · intro reg pre post bs cs h
    simp only [decodeHeaderFrags, List.map_append, List.map_cons,
      List.flatten_append, List.flatten_cons]
    rw [pyDecode, h]
    simp [List.append_assoc]
  · intro reg cs bs h
    rw [getBody, pyDecode, h]

theorem claim_C7_charset_amended_witness :
    lookupCodec [] "x-bogus" = none ∧
    pyDecode [] "x-bogus" [255, 97] = utf8Ignore [255, 97] :=
  ⟨rfl, claim_C7_charset_amended.1 [] "x-bogus" [255, 97] rfl⟩

end SMail
